import Mathlib

/-!
# Miller: the record-stream pipeline and the clean-whitespace verb

A shallow embedding of `go/src/miller/mapping/chain_mapper.go` (pipeline
construction and the per-stage runner loop) and of
`go/src/transformers/clean-whitespace.go` (the clean-whitespace verb and its
command-line parser), followed by theorems about them.

Go pointers that may be nil are `Option`s; a Go run-time panic is an explicit
failure value; goroutines and channels are an interleaving step function on a
configuration.
-/

namespace Miller

/-! ## Data model -/

/-- Modelled from the spec: `types.Mlrval` is declared outside the files at hand.
A field value is represented by the string it prints as. -/
structure Mlrval where
  printrep : String
deriving DecidableEq, Repr

/-- Modelled from the spec: `types.MlrvalFromString` (absent) wraps a Go string
as a field value. -/
def MlrvalFromString (input : String) : Mlrval := ⟨input⟩

/-- Modelled from the spec: `Mlrval.String()` (absent) gives back the string form
of a field value. -/
def Mlrval.String (mv : Mlrval) : String := mv.printrep

/-- Modelled from the spec: `types.Context` is declared outside the files at hand;
read-only metadata about where a record came from. -/
structure Context where
  FILENAME : String
  NR : Nat
deriving DecidableEq, Repr

/-- The ordered key-value list behind `*types.Mlrmap`: the linked list that
starts at `Head` and is walked through `Next`. -/
abbrev Mlrmap := List (String × Mlrval)

/-- The envelope `types.RecordAndContext`, with the fields the two source files
read: `Record` (a pointer, nil when absent), `Context`, `EndOfStream`. -/
structure RecordAndContext where
  Record : Option Mlrmap
  Context : Context
  EndOfStream : Bool
deriving DecidableEq, Repr

/-- Modelled from the spec: `types.NewMlrmapAsRecord` (absent) makes an empty
record. -/
def NewMlrmapAsRecord : Mlrmap := []

/-- Modelled from the spec: `Mlrmap.PutReference` (absent). Keys are unique within
a record and insertion order is kept: a key already present has its value
replaced where it stands, a new key is appended. -/
def PutReference : Mlrmap → String → Mlrval → Mlrmap
  | [], key, value => [(key, value)]
  | (k, v) :: rest, key, value =>
    if k = key then (k, value) :: rest else (k, v) :: PutReference rest key value

/-- Modelled from the spec: `types.NewRecordAndContext` (absent) wraps a record and
a copy of the context in a data envelope, the end-of-stream flag cleared. -/
def NewRecordAndContext (record : Mlrmap) (context : Context) : RecordAndContext :=
  { Record := some record, Context := context, EndOfStream := false }

/-! ## Whitespace cleaning -/

/-- Replace every maximal run of whitespace characters by one space. -/
def collapseWhitespace : List Char → List Char
  | [] => []
  | [c] => [if c.isWhitespace then ' ' else c]
  | c :: d :: rest =>
    if c.isWhitespace then
      if d.isWhitespace then collapseWhitespace (d :: rest)
      else ' ' :: collapseWhitespace (d :: rest)
    else c :: collapseWhitespace (d :: rest)

/-- Drop leading and trailing whitespace characters. -/
def stripWhitespace (l : List Char) : List Char :=
  (l.dropWhile Char.isWhitespace).rdropWhile Char.isWhitespace

/-- Whitespace cleaning of a Go string, as the usage text of the verb words it:
"stripping leading and trailing whitespace, and replacing multiple whitespace
with singles". -/
def cleanWhitespaceString (s : String) : String :=
  ⟨stripWhitespace (collapseWhitespace s.data)⟩

/-- Modelled from the spec: `types.MlrvalCleanWhitespace` (absent) whitespace-cleans
a field value. -/
def MlrvalCleanWhitespace (input1 : Mlrval) : Mlrval :=
  MlrvalFromString (cleanWhitespaceString input1.String)

/-! ## The clean-whitespace verb (`clean-whitespace.go`) -/

/-- What one call of a record-transformer function sends on its output channel, in
order; `none` is a nil-pointer panic. -/
abbrev Emission := Option (List RecordAndContext)

/-- The loop of `cleanWhitespaceInKeysAndValues` over the fields of the input
record, filling `newrec`. -/
def cleanKeysAndValuesLoop (newrec : Mlrmap) : Mlrmap → Mlrmap
  | [] => newrec
  | (peKey, peValue) :: next =>
    let oldKey := MlrvalFromString peKey
    let newKey := MlrvalCleanWhitespace oldKey
    let newValue := MlrvalCleanWhitespace peValue
    cleanKeysAndValuesLoop (PutReference newrec newKey.String newValue) next

/-- The Go method `cleanWhitespaceInKeysAndValues`. -/
def cleanWhitespaceInKeysAndValues (inrecAndContext : RecordAndContext) : Emission :=
  if !inrecAndContext.EndOfStream then
    match inrecAndContext.Record with
    | none => none
    | some record =>
      let newrec := cleanKeysAndValuesLoop NewMlrmapAsRecord record
      some [NewRecordAndContext newrec inrecAndContext.Context]
  else
    some [inrecAndContext]

/-- The loop of `cleanWhitespaceInKeys` over the fields of the input record,
filling `newrec`. -/
def cleanKeysLoop (newrec : Mlrmap) : Mlrmap → Mlrmap
  | [] => newrec
  | (peKey, peValue) :: next =>
    let oldKey := MlrvalFromString peKey
    let newKey := MlrvalCleanWhitespace oldKey
    cleanKeysLoop (PutReference newrec newKey.String peValue) next

/-- The Go method `cleanWhitespaceInKeys`. -/
def cleanWhitespaceInKeys (inrecAndContext : RecordAndContext) : Emission :=
  if !inrecAndContext.EndOfStream then
    match inrecAndContext.Record with
    | none => none
    | some record =>
      let newrec := cleanKeysLoop NewMlrmapAsRecord record
      some [NewRecordAndContext newrec inrecAndContext.Context]
  else
    some [inrecAndContext]

/-- The loop of `cleanWhitespaceInValues`: every field value is overwritten in
place by its cleaned form. -/
def cleanValuesLoop : Mlrmap → Mlrmap
  | [] => []
  | (peKey, peValue) :: next =>
    let newValue := MlrvalCleanWhitespace peValue
    (peKey, newValue) :: cleanValuesLoop next

/-- The Go method `cleanWhitespaceInValues`. -/
def cleanWhitespaceInValues (inrecAndContext : RecordAndContext) : Emission :=
  if !inrecAndContext.EndOfStream then
    match inrecAndContext.Record with
    | none => none
    | some record =>
      some [{ inrecAndContext with Record := some (cleanValuesLoop record) }]
  else
    some [inrecAndContext]

/-- The struct `TransformerCleanWhitespace`: it holds the function chosen at
construction. -/
structure TransformerCleanWhitespace where
  recordTransformerFunc : RecordAndContext → Emission

/-- The Go constructor `NewTransformerCleanWhitespace`. -/
def NewTransformerCleanWhitespace (doKeys doValues : Bool) : TransformerCleanWhitespace :=
  if doKeys && doValues then
    { recordTransformerFunc := cleanWhitespaceInKeysAndValues }
  else if doKeys then
    { recordTransformerFunc := cleanWhitespaceInKeys }
  else
    { recordTransformerFunc := cleanWhitespaceInValues }

/-- The Go method `Transform`. -/
def TransformerCleanWhitespace.Transform (this : TransformerCleanWhitespace)
    (inrecAndContext : RecordAndContext) : Emission :=
  this.recordTransformerFunc inrecAndContext


/-! ## The command-line parser of the verb -/

/-- The two files the usage text can be printed on. -/
inductive OsFile
  | Stdout
  | Stderr
deriving DecidableEq, Repr

/-- The process ending inside `transformerCleanWhitespaceUsage`: the usage text
was written on `usageOn` and `os.Exit exitCode` was called. -/
structure UsageExit where
  usageOn : OsFile
  exitCode : Int
deriving DecidableEq, Repr

/-- The Go function `transformerCleanWhitespaceUsage`: it prints the usage on `o`
and, when `doExit` is set, ends the process with `exitCode`. `none` means it
returned to its caller. -/
def transformerCleanWhitespaceUsage (o : OsFile) (doExit : Bool) (exitCode : Int) :
    Option UsageExit :=
  if doExit then some { usageOn := o, exitCode := exitCode } else none

/-- The Go library function `strings.HasPrefix`. -/
def HasPrefix (s pfx : String) : Bool := pfx.data.isPrefixOf s.data

/-- How a call of `transformerCleanWhitespaceParseCLI` ends. -/
inductive ParseCLIResult
  | exited (e : UsageExit)
  | indexOutOfRange
  | returned (transformer : TransformerCleanWhitespace) (pargi : Nat)

/-- The part of `transformerCleanWhitespaceParseCLI` after its loop. -/
def parseCLIFinish (argi : Nat) (doKeys doValues : Bool) : ParseCLIResult :=
  match (if !doKeys && !doValues then transformerCleanWhitespaceUsage .Stderr true 1 else none) with
  | some e => .exited e
  | none => .returned (NewTransformerCleanWhitespace doKeys doValues) argi

/-- The loop of `transformerCleanWhitespaceParseCLI` over the flags. -/
def parseCLILoop (argc : Nat) (args : List String) (argi : Nat) (doKeys doValues : Bool) :
    ParseCLIResult :=
  if argi < argc then
    match args[argi]? with
    | none => .indexOutOfRange
    | some opt =>
      if !HasPrefix opt "-" then
        parseCLIFinish argi doKeys doValues
      else
        if opt = "-h" || opt = "--help" then
          match transformerCleanWhitespaceUsage .Stdout true 0 with
          | some e => .exited e
          | none => parseCLILoop argc args (argi + 1) doKeys doValues
        else if opt = "-k" || opt = "--keys-only" then
          parseCLILoop argc args (argi + 1) true false
        else if opt = "-v" || opt = "--values-only" then
          parseCLILoop argc args (argi + 1) false true
        else
          match transformerCleanWhitespaceUsage .Stderr true 1 with
          | some e => .exited e
          | none => parseCLILoop argc args (argi + 1) doKeys doValues
  else
    parseCLIFinish argi doKeys doValues
termination_by argc - argi

/-- The Go function `transformerCleanWhitespaceParseCLI`; `pargi` is the value
behind the pointer on entry, the result carries the value stored on return. -/
def transformerCleanWhitespaceParseCLI (pargi : Nat) (argc : Nat) (args : List String) :
    ParseCLIResult :=
  parseCLILoop argc args (pargi + 1) true true

/-! ## Pipeline construction (`chain_mapper.go`) -/

/-- The interface `IRecordMapper`: an object with private state and one method
`Map`, which is handed an envelope and sends zero or more envelopes on the output
channel. `Map` gives the new state and the envelopes sent, in order; `none` is a
call that panics. -/
structure IRecordMapper where
  State : Type
  state : State
  Map : State → RecordAndContext → Option (State × List RecordAndContext)

/-- The mapper after a call of `Map` left it in state `s`. -/
def IRecordMapper.withState (m : IRecordMapper) (s : m.State) : IRecordMapper :=
  { State := m.State, state := s, Map := m.Map }

/-- One call `recordMapper.Map(recordAndContext, outrecsAndContexts)`. -/
def IRecordMapper.call (m : IRecordMapper) (e : RecordAndContext) :
    Option (IRecordMapper × List RecordAndContext) :=
  match m.Map m.state e with
  | none => none
  | some (s, outs) => some (m.withState s, outs)

/-- The clean-whitespace transformer as a pipeline stage: it has no state. -/
def TransformerCleanWhitespace.asMapper (t : TransformerCleanWhitespace) : IRecordMapper :=
  { State := Unit, state := (), Map := fun _ e => (t.Transform e).map (fun outs => ((), outs)) }

/-- The channels of a pipeline: the two the caller passes in and the ones
`ChainMapper` makes, named by their index in `intermediateChannels`. -/
inductive ChanId
  | inrecsAndContexts
  | outrecsAndContexts
  | intermediate (i : Nat)
deriving DecidableEq, Repr

/-- A channel made by `make(chan *lib.RecordAndContext, capacity)`. -/
structure Channel where
  id : ChanId
  capacity : Nat
deriving DecidableEq, Repr

/-- One `go runSingleMapper(ichan, recordMapper, ochan)` statement. -/
structure Launch where
  ichan : ChanId
  recordMapper : IRecordMapper
  ochan : ChanId

/-- What a call of `ChainMapper` has done when it returns: the channels it made
and the goroutines it started, in order. -/
structure Wiring where
  intermediateChannels : List Channel
  launched : List Launch

/-- The run-time panics of `ChainMapper`. -/
inductive GoPanic
  | makesliceLenOutOfRange
  | indexOutOfRange
deriving DecidableEq, Repr

/-- The second loop of `ChainMapper`, from index `i` on. -/
def launchLoop (n : Int) (intermediateChannels : List Channel) :
    Nat → List IRecordMapper → Except GoPanic (List Launch)
  | _, [] => .ok []
  | i, recordMapper :: rest =>
    let ichan : Except GoPanic ChanId :=
      if i > 0 then
        match intermediateChannels[i - 1]? with
        | some ch => .ok ch.id
        | none => .error .indexOutOfRange
      else .ok .inrecsAndContexts
    let ochan : Except GoPanic ChanId :=
      if (i : Int) < n - 1 then
        match intermediateChannels[i]? with
        | some ch => .ok ch.id
        | none => .error .indexOutOfRange
      else .ok .outrecsAndContexts
    match ichan, ochan with
    | .ok ic, .ok oc =>
      match launchLoop n intermediateChannels (i + 1) rest with
      | .ok ls => .ok ({ ichan := ic, recordMapper := recordMapper, ochan := oc } :: ls)
      | .error p => .error p
    | .error p, _ => .error p
    | _, .error p => .error p

/-- The Go function `ChainMapper`. The length `n - 1` handed to `make` is a signed
integer; a negative one makes `make` panic. -/
def ChainMapper (recordMappers : List IRecordMapper) : Except GoPanic Wiring :=
  let n : Int := recordMappers.length
  if n - 1 < 0 then .error .makesliceLenOutOfRange
  else
    let intermediateChannels : List Channel :=
      (List.range (n - 1).toNat).map (fun i => { id := .intermediate i, capacity := 1 })
    match launchLoop n intermediateChannels 0 recordMappers with
    | .ok launched => .ok { intermediateChannels := intermediateChannels, launched := launched }
    | .error p => .error p

/-! ## The runner loop, run alone on a given input sequence -/

/-- How the loop of `runSingleMapper` ends on a finite input: it left the loop, it
waits for an envelope that never comes, or the stage panicked. -/
inductive RunnerStatus
  | exited
  | awaitingInput
  | panicked
deriving DecidableEq, Repr

/-- What `runSingleMapper` did: the envelopes it passed to `Map`, in order, the
envelopes the stage sent, in order, and how the loop ended. -/
structure RunnerTrace where
  invoked : List RecordAndContext
  emitted : List RecordAndContext
  status : RunnerStatus
deriving DecidableEq, Repr

/-- The Go function `runSingleMapper` on the sequence of envelopes that arrive on
its input channel. -/
def runSingleMapper (recordMapper : IRecordMapper) : List RecordAndContext → RunnerTrace
  | [] => { invoked := [], emitted := [], status := .awaitingInput }
  | recordAndContext :: later =>
    match recordMapper.call recordAndContext with
    | none => { invoked := [recordAndContext], emitted := [], status := .panicked }
    | some (recordMapper1, outs) =>
      if recordAndContext.Record = none then
        { invoked := [recordAndContext], emitted := outs, status := .exited }
      else
        let t := runSingleMapper recordMapper1 later
        { invoked := recordAndContext :: t.invoked, emitted := outs ++ t.emitted,
          status := t.status }

/-! ## The running pipeline: goroutines and channels -/

/-- Where a goroutine running `runSingleMapper` stands: about to receive; inside
`Map`, with `pending` still to be sent and `sawEnd` recording whether the envelope
in hand has a nil record; or out of the loop. -/
inductive Pc
  | receiving
  | sending (pending : List RecordAndContext) (sawEnd : Bool)
  | exited
deriving DecidableEq, Repr

/-- A goroutine started by `ChainMapper`. -/
structure Goroutine where
  ichan : ChanId
  ochan : ChanId
  recordMapper : IRecordMapper
  pc : Pc

/-- A configuration of the running pipeline. `source` holds the envelopes the
producer still delivers on the external input channel, `sink` the envelopes the
consumer has taken off the external output channel (it takes every one),
`buffers k` the content of intermediate channel `k`. -/
structure Config where
  source : List RecordAndContext
  sink : List RecordAndContext
  buffers : Nat → List RecordAndContext
  capacity : Nat → Nat
  goroutines : List Goroutine

/-- Receive from a channel: the oldest envelope, when there is one. -/
def Config.recv (c : Config) : ChanId → Option (RecordAndContext × Config)
  | .inrecsAndContexts =>
    match c.source with
    | [] => none
    | e :: rest => some (e, { c with source := rest })
  | .intermediate k =>
    match c.buffers k with
    | [] => none
    | e :: rest => some (e, { c with buffers := Function.update c.buffers k rest })
  | .outrecsAndContexts => none

/-- Send on a channel: possible when the buffer has room. -/
def Config.send (c : Config) (e : RecordAndContext) : ChanId → Option Config
  | .outrecsAndContexts => some { c with sink := c.sink ++ [e] }
  | .intermediate k =>
    if (c.buffers k).length < c.capacity k then
      some { c with buffers := Function.update c.buffers k (c.buffers k ++ [e]) }
    else none
  | .inrecsAndContexts => none

/-- The outcome of scheduling one goroutine. -/
inductive StepResult
  | blocked
  | panicked
  | next (c : Config)

/-- Replace goroutine `i`. -/
def Config.setGoroutine (c : Config) (i : Nat) (g : Goroutine) : Config :=
  { c with goroutines := c.goroutines.set i g }

/-- One step of goroutine `i`: a receive followed by the call of `Map`, one send
of an envelope `Map` emits, or the test at the end of the loop body. -/
def Config.step (c : Config) (i : Nat) : StepResult :=
  match c.goroutines[i]? with
  | none => .blocked
  | some g =>
    match g.pc with
    | .exited => .blocked
    | .receiving =>
      match c.recv g.ichan with
      | none => .blocked
      | some (e, c1) =>
        match g.recordMapper.call e with
        | none => .panicked
        | some (m1, outs) =>
          .next (c1.setGoroutine i
            { g with recordMapper := m1, pc := .sending outs (e.Record = none) })
    | .sending [] sawEnd =>
      .next (c.setGoroutine i { g with pc := if sawEnd then .exited else .receiving })
    | .sending (o :: rest) sawEnd =>
      match c.send o g.ochan with
      | none => .blocked
      | some c1 => .next (c1.setGoroutine i { g with pc := .sending rest sawEnd })

/-- Run a schedule: the goroutines named, one step each, in order. `none` when a
goroutine named cannot step or panics. -/
def Config.run (c : Config) : List Nat → Option Config
  | [] => some c
  | i :: later =>
    match c.step i with
    | .next c1 => c1.run later
    | _ => none

/-- The configuration right after `ChainMapper` returned, with `input` the
envelopes the producer delivers. -/
def Wiring.start (w : Wiring) (input : List RecordAndContext) : Config :=
  { source := input
    sink := []
    buffers := fun _ => []
    capacity := fun k => match w.intermediateChannels[k]? with
      | some ch => ch.capacity
      | none => 0
    goroutines := w.launched.map (fun l =>
      { ichan := l.ichan, ochan := l.ochan, recordMapper := l.recordMapper, pc := .receiving }) }

/-- Every goroutine has left its loop. -/
def Config.allExited (c : Config) : Prop := ∀ g ∈ c.goroutines, g.pc = .exited

/-- Some goroutine can take a step. -/
def Config.canStep (c : Config) : Prop := ∃ i c1, c.step i = .next c1

/-! ## Notions used in the proofs -/

/-- A character list in collapsed form: every whitespace character is a space and
no two whitespace characters are adjacent. -/
def Collapsed : List Char → Prop
  | [] => True
  | [c] => c.isWhitespace = true → c = ' '
  | c :: d :: rest =>
    (c.isWhitespace = true → c = ' ' ∧ d.isWhitespace = false) ∧ Collapsed (d :: rest)

/-- The shape the key-rewriting loops share: every field is rewritten by `g` and
put into `newrec`. -/
def putLoop (g : String × Mlrval → String × Mlrval) (newrec : Mlrmap) : Mlrmap → Mlrmap
  | [] => newrec
  | pe :: next => putLoop g (PutReference newrec (g pe).1 (g pe).2) next


/-! ## Streams, the stage contract and the invariant of a running pipeline -/

/-- A data envelope: it carries a record and its end-of-stream flag is cleared. -/
def IsData (e : RecordAndContext) : Prop := e.Record ≠ none ∧ e.EndOfStream = false

/-- A terminal envelope: no record, end-of-stream flag set. -/
def IsTerminal (e : RecordAndContext) : Prop := e.Record = none ∧ e.EndOfStream = true

/-- A finite stream of data envelopes closed by one terminal envelope. -/
def WellFormedStream (xs : List RecordAndContext) : Prop :=
  ∃ ds t, xs = ds ++ [t] ∧ (∀ d ∈ ds, IsData d) ∧ IsTerminal t

/-- The stage contract: in every state, a call on a data envelope returns and sends
data envelopes only; a call on a terminal envelope returns and sends zero or more
data envelopes and then that same envelope, once, as the last thing sent. -/
def StageContract (m : IRecordMapper) : Prop :=
  ∀ (s : m.State) (e : RecordAndContext),
    (IsData e → ∃ s1 outs, m.Map s e = some (s1, outs) ∧ ∀ o ∈ outs, IsData o) ∧
    (IsTerminal e → ∃ s1 pre, m.Map s e = some (s1, pre ++ [e]) ∧ ∀ o ∈ pre, IsData o)

/-- What the runner loop of a stage sends in all when `input` arrives on its input
channel; `none` when the stage panics on the way. -/
def runnerOutput (m : IRecordMapper) (input : List RecordAndContext) :
    Option (List RecordAndContext) :=
  if (runSingleMapper m input).status = .panicked then none
  else some (runSingleMapper m input).emitted

/-- What the last stage sends in all when the stages run one after the other, each
on all that the one before it sent. -/
def pipelineOutput (recordMappers : List IRecordMapper) (input : List RecordAndContext) :
    Option (List RecordAndContext) :=
  recordMappers.foldl (fun acc m => acc.bind (runnerOutput m)) (some input)

/-- Whether a goroutine has received an envelope with a nil record. -/
def Pc.seenEnd : Pc → Bool
  | .receiving => false
  | .sending _ sawEnd => sawEnd
  | .exited => true

/-- Whether a goroutine is inside a call of `Map`. -/
def Pc.inMap : Pc → Bool
  | .sending _ _ => true
  | _ => false

/-- The content of the channel goroutine `i` writes: the sink for the last
goroutine, intermediate channel `i` for the others. -/
def Config.outBuf (c : Config) (i : Nat) : List RecordAndContext :=
  if i + 1 = c.goroutines.length then c.sink else c.buffers i

/-- What a goroutine has yet to send, given what is yet to arrive on its input. -/
def futureOf (g : Option Goroutine) (arriving : Option (List RecordAndContext)) :
    Option (List RecordAndContext) :=
  match g with
  | none => some []
  | some g =>
    match g.pc with
    | .exited => some []
    | .receiving => arriving.bind (runnerOutput g.recordMapper)
    | .sending pending sawEnd =>
      if sawEnd then some pending
      else arriving.bind (fun xs => (runnerOutput g.recordMapper xs).map (pending ++ ·))

/-- What is yet to arrive at goroutine `i`: the content of its input channel and
all that the goroutines before it have yet to send. At index `goroutines.length`
it is the sink followed by all that is yet to reach it. -/
def Config.arriving (c : Config) : Nat → Option (List RecordAndContext)
  | 0 => some c.source
  | i + 1 => (futureOf c.goroutines[i]? (c.arriving i)).map (c.outBuf i ++ ·)

/-- The channels are wired as a chain and every intermediate channel has room for
at least one envelope. -/
def Config.Wired (c : Config) : Prop :=
  (∀ i g, c.goroutines[i]? = some g →
    g.ichan = (if i = 0 then .inrecsAndContexts else .intermediate (i - 1)) ∧
    g.ochan = (if i + 1 = c.goroutines.length then .outrecsAndContexts
               else .intermediate i)) ∧
  (∀ k, k + 1 < c.goroutines.length → 1 ≤ c.capacity k)

/-- The invariant of a run that ends with `result` in the sink: what is yet to
arrive at a goroutine still to see the terminal envelope is a well-formed stream,
nothing is yet to arrive at one that has seen it, and the sink followed by all
that is yet to reach it is `result`. -/
def Config.Flowing (c : Config) (result : List RecordAndContext) : Prop :=
  (∀ i g, c.goroutines[i]? = some g →
    ∃ xs, c.arriving i = some xs ∧
      (if g.pc.seenEnd then xs = [] else WellFormedStream xs)) ∧
  c.arriving c.goroutines.length = some result

/-- How a step of goroutine `k` shows in what is yet to arrive: nothing changes
away from `k`; at `k` either one envelope was received, or one envelope was sent,
or the end of the loop body was passed. -/
def Effect (c : Config) (k : Nat) (c1 : Config) : Prop :=
  c1.goroutines.length = c.goroutines.length ∧ c1.capacity = c.capacity ∧
  (∀ j, j ≠ k → c1.goroutines[j]? = c.goroutines[j]?) ∧
  (∀ i, i ≠ k → c1.arriving i = c.arriving i) ∧
  ∃ g g1, c.goroutines[k]? = some g ∧ c1.goroutines[k]? = some g1 ∧
    g1.ichan = g.ichan ∧ g1.ochan = g.ochan ∧
    ((g.pc = .receiving ∧ ∃ e X outs, c.arriving k = some (e :: X) ∧ c1.arriving k = some X ∧
        g1.pc = .sending outs (e.Record = none) ∧
        futureOf (some g1) (some X) = futureOf (some g) (some (e :: X))) ∨
     (∃ o rest b, g.pc = .sending (o :: rest) b ∧ g1.pc = .sending rest b ∧
        c1.arriving k = c.arriving k ∧ g1.recordMapper = g.recordMapper) ∨
     (∃ b, g.pc = .sending [] b ∧ g1.pc = (if b then .exited else .receiving) ∧
        c1.arriving k = c.arriving k ∧ g1.recordMapper = g.recordMapper))

/-- The share of goroutine `i` in the measure of a configuration. -/
def Config.weight (c : Config) (i : Nat) : Nat :=
  2 * ((c.arriving i).getD []).length
    + ((futureOf c.goroutines[i]? (c.arriving i)).getD []).length
    + (match c.goroutines[i]? with
       | some g => if g.pc.inMap then 1 else 0
       | none => 0)

/-- The measure of a configuration: it bounds the number of steps left. -/
def Config.measure (c : Config) : Nat :=
  ((List.range c.goroutines.length).map c.weight).sum

/-- A stage that sends every envelope on as it is. -/
def passThrough : IRecordMapper :=
  { State := Unit, state := (), Map := fun _ e => some ((), [e]) }

/-- A stage that, on an envelope with a nil record, sends it on and then sends two
envelopes more, and sends every other envelope on as it is. -/
def trailing (d : RecordAndContext) : IRecordMapper :=
  { State := Unit, state := (),
    Map := fun _ e => if e.Record = none then some ((), [e, d, d]) else some ((), [e]) }

/-- A stage that sends nothing, whatever it is handed. -/
def swallow : IRecordMapper :=
  { State := Unit, state := (), Map := fun _ _ => some ((), []) }

/-- The claim that a stage forwards the terminal envelope unmodified exactly once,
read by its words: handed an envelope with a nil record, the stage returns and
that envelope is among the envelopes sent exactly once, every other envelope sent
carrying a record. -/
def ForwardsTerminalOnce (m : IRecordMapper) : Prop :=
  ∀ (s : m.State) (e : RecordAndContext), e.Record = none →
    ∃ s1 outs, m.Map s e = some (s1, outs) ∧ outs.count e = 1 ∧
      ∀ o ∈ outs, o ≠ e → o.Record ≠ none

/-- Whether scheduling a goroutine made a step. -/
def StepResult.isNext : StepResult → Bool
  | .next _ => true
  | _ => false

/-- Whether some goroutine can take a step, computed. -/
def Config.anyStep (c : Config) : Bool :=
  (List.range c.goroutines.length).any (fun i => (c.step i).isNext)

/-- Whether every goroutine has left its loop, computed. -/
def Config.allExitedB (c : Config) : Bool :=
  c.goroutines.all (fun g => decide (g.pc = .exited))

/-- Every run from `c0` keeps in the sink a prefix of `result`, never meets a panic,
and holds exactly `result` in the sink once no goroutine can step; and there is
such a run. -/
def Config.Delivers (c0 : Config) (result : List RecordAndContext) : Prop :=
  (∀ sched c, c0.run sched = some c →
    c.sink <+: result ∧ (∀ i, c.step i ≠ .panicked) ∧ (¬ c.canStep → c.sink = result)) ∧
  ∃ sched c, c0.run sched = some c ∧ ¬ c.canStep ∧ c.sink = result

/-- Every run from `c0` is at most `bound` steps long for some `bound`, never
meets a panic, and can only come to a halt with every goroutine out of its loop;
and there is a run that ends so. -/
def Config.Terminates (c0 : Config) : Prop :=
  (∃ bound, ∀ sched c, c0.run sched = some c →
    sched.length ≤ bound ∧ (∀ i, c.step i ≠ .panicked) ∧ (¬ c.canStep → c.allExited)) ∧
  ∃ sched c, c0.run sched = some c ∧ c.allExited

/-- The field-wise cleaning of the values of a data envelope. -/
def cleanValuesOf (e : RecordAndContext) : RecordAndContext :=
  { e with Record := e.Record.map (List.map (fun pe => (pe.1, MlrvalCleanWhitespace pe.2))) }

/-! ## Whitespace cleaning is idempotent -/

theorem collapsed_tail {c : Char} {l : List Char} (h : Collapsed (c :: l)) : Collapsed l := by
  cases l with
  | nil => trivial
  | cons d rest => exact h.2

theorem collapsed_collapseWhitespace (l : List Char) : Collapsed (collapseWhitespace l) := by
  induction l using collapseWhitespace.induct with
  | case1 => trivial
  | case2 c =>
    simp only [collapseWhitespace, Collapsed]
    intro _
    by_cases hc : c.isWhitespace = true
    · simp [hc]
    · rename_i h; simp [hc] at h
  | case3 c d rest hc hd ih =>
    simpa [collapseWhitespace, hc, hd] using ih
  | case4 c d rest hc hd ih =>
    simp only [collapseWhitespace, hc, hd, if_true, if_false] at ih ⊢
    cases rest with
    | nil =>
      simp only [collapseWhitespace, hd, if_false, Collapsed] at ih ⊢
      simp [hd]
    | cons e rest2 =>
      simp only [collapseWhitespace, hd, if_false] at ih ⊢
      simp only [Collapsed]
      refine ⟨fun _ => ⟨trivial, by simpa using hd⟩, ih⟩
  | case5 c d rest hc ih =>
    simp only [collapseWhitespace, hc, if_false]
    generalize hr : collapseWhitespace (d :: rest) = r at ih
    cases r with
    | nil => simp [Collapsed, hc]
    | cons e r2 => exact ⟨fun h => absurd h hc, ih⟩

theorem collapseWhitespace_of_collapsed : ∀ (l : List Char), Collapsed l → collapseWhitespace l = l
  | [], _ => rfl
  | [c], h => by
    simp only [collapseWhitespace]
    by_cases hc : c.isWhitespace = true
    · simp [hc, h hc]
    · simp [hc]
  | c :: d :: rest, h => by
    have ih := collapseWhitespace_of_collapsed (d :: rest) h.2
    simp only [collapseWhitespace]
    by_cases hc : c.isWhitespace = true
    · obtain ⟨h1, h2⟩ := h.1 hc
      simp [hc, h2, ih, h1]
    · simp [hc, ih]

theorem collapsed_of_suffix : ∀ {l m : List Char}, Collapsed l → m <:+ l → Collapsed m
  | [], m, _, hs => by
    have : m = [] := List.eq_nil_of_suffix_nil hs
    subst this; trivial
  | c :: l, m, h, hs => by
    rcases List.suffix_cons_iff.mp hs with h1 | h1
    · subst h1; exact h
    · exact collapsed_of_suffix (collapsed_tail h) h1

theorem collapsed_of_initial : ∀ {l m : List Char}, Collapsed l → m <+: l → Collapsed m
  | _, [], _, _ => trivial
  | [], _ :: _, _, hs => by simp at hs
  | [c], [e], h, hs => by
    obtain ⟨rfl, _⟩ := List.cons_prefix_cons.mp hs
    exact h
  | [c], e :: f :: m, _, hs => by
    obtain ⟨_, h2⟩ := List.cons_prefix_cons.mp hs
    simp at h2
  | c :: d :: l, [e], h, hs => by
    obtain ⟨rfl, _⟩ := List.cons_prefix_cons.mp hs
    exact fun hc => (h.1 hc).1
  | c :: d :: l, e :: f :: m, h, hs => by
    obtain ⟨rfl, h2⟩ := List.cons_prefix_cons.mp hs
    obtain ⟨rfl, _⟩ := List.cons_prefix_cons.mp h2
    exact ⟨h.1, collapsed_of_initial h.2 h2⟩

theorem collapsed_stripWhitespace {l : List Char} (h : Collapsed l) :
    Collapsed (stripWhitespace l) :=
  collapsed_of_initial (collapsed_of_suffix h (List.dropWhile_suffix _)) (List.rdropWhile_prefix _ _)

theorem stripWhitespace_idem (l : List Char) :
    stripWhitespace (stripWhitespace l) = stripWhitespace l := by
  unfold stripWhitespace
  generalize hm : l.dropWhile Char.isWhitespace = m
  have hm0 : ∀ h : m ≠ [], ¬ (m.head h).isWhitespace = true := by
    intro h
    have := List.head_dropWhile_not Char.isWhitespace l (by rw [hm]; exact h)
    simpa [hm] using this
  have key : (m.rdropWhile Char.isWhitespace).dropWhile Char.isWhitespace
      = m.rdropWhile Char.isWhitespace := by
    obtain ⟨t, ht⟩ := List.rdropWhile_prefix Char.isWhitespace m
    generalize m.rdropWhile Char.isWhitespace = r at ht
    cases r with
    | nil => rfl
    | cons a r2 =>
      subst ht
      have := hm0 (by simp)
      simp at this
      simp [List.dropWhile, this]
  rw [key, List.rdropWhile_idempotent]

theorem cleanWhitespaceString_idem (s : String) :
    cleanWhitespaceString (cleanWhitespaceString s) = cleanWhitespaceString s := by
  unfold cleanWhitespaceString
  simp only
  rw [collapseWhitespace_of_collapsed _ (collapsed_stripWhitespace (collapsed_collapseWhitespace _)),
    stripWhitespace_idem]

theorem MlrvalCleanWhitespace_idem (v : Mlrval) :
    MlrvalCleanWhitespace (MlrvalCleanWhitespace v) = MlrvalCleanWhitespace v := by
  simp [MlrvalCleanWhitespace, MlrvalFromString, Mlrval.String, cleanWhitespaceString_idem]

theorem cleanKeysLoop_eq (newrec l : Mlrmap) :
    cleanKeysLoop newrec l
      = putLoop (fun pe => ((MlrvalCleanWhitespace (MlrvalFromString pe.1)).String, pe.2)) newrec l := by
  induction l generalizing newrec with
  | nil => rfl
  | cons pe next ih => obtain ⟨k, v⟩ := pe; simp only [cleanKeysLoop, putLoop, ih]

theorem cleanKeysAndValuesLoop_eq (newrec l : Mlrmap) :
    cleanKeysAndValuesLoop newrec l
      = putLoop (fun pe => ((MlrvalCleanWhitespace (MlrvalFromString pe.1)).String,
          MlrvalCleanWhitespace pe.2)) newrec l := by
  induction l generalizing newrec with
  | nil => rfl
  | cons pe next ih => obtain ⟨k, v⟩ := pe; simp only [cleanKeysAndValuesLoop, putLoop, ih]

theorem cleanValuesLoop_eq (l : Mlrmap) :
    cleanValuesLoop l = l.map (fun pe => (pe.1, MlrvalCleanWhitespace pe.2)) := by
  induction l with
  | nil => rfl
  | cons pe next ih => obtain ⟨k, v⟩ := pe; simp only [cleanValuesLoop, List.map_cons, ih]

theorem PutReference_of_not_mem (m : Mlrmap) (key : String) (value : Mlrval)
    (h : key ∉ m.map Prod.fst) : PutReference m key value = m ++ [(key, value)] := by
  induction m with
  | nil => rfl
  | cons e rest ih =>
    obtain ⟨k, v⟩ := e
    simp only [List.map_cons, List.mem_cons, not_or] at h
    have hk : ¬ k = key := fun hh => h.1 hh.symm
    simp only [PutReference, hk, if_false, List.cons_append, ih h.2]

theorem PutReference_keys_nodup (m : Mlrmap) (key : String) (value : Mlrval)
    (h : (m.map Prod.fst).Nodup) : ((PutReference m key value).map Prod.fst).Nodup := by
  induction m with
  | nil => simp [PutReference]
  | cons e rest ih =>
    obtain ⟨k, v⟩ := e
    simp only [PutReference]
    split
    · simpa using h
    · rename_i hk
      simp only [List.map_cons, List.nodup_cons] at h ⊢
      refine ⟨?_, ih h.2⟩
      by_cases hmem : key ∈ rest.map Prod.fst
      · intro hin
        have : (PutReference rest key value).map Prod.fst = rest.map Prod.fst := by
          clear ih h hin
          induction rest with
          | nil => simp at hmem
          | cons e2 r2 ih2 =>
            obtain ⟨k2, v2⟩ := e2
            simp only [PutReference]
            split
            · simp
            · rename_i hk2
              simp only [List.map_cons, List.mem_cons] at hmem
              rcases hmem with h1 | h1
              · exact absurd h1.symm hk2
              · simp [ih2 h1]
        rw [this] at hin
        exact h.1 hin
      · rw [PutReference_of_not_mem _ _ _ hmem]
        simp only [List.map_append, List.map_cons, List.map_nil, List.mem_append,
          List.mem_singleton, not_or]
        exact ⟨h.1, hk⟩

theorem PutReference_mem (m : Mlrmap) (key : String) (value : Mlrval) (e : String × Mlrval)
    (h : e ∈ PutReference m key value) : e ∈ m ∨ e = (key, value) := by
  induction m with
  | nil => simpa [PutReference] using h
  | cons e2 rest ih =>
    obtain ⟨k, v⟩ := e2
    simp only [PutReference] at h
    split at h
    · rename_i hk
      simp only [List.mem_cons] at h ⊢
      rcases h with h | h
      · right; rw [h, hk]
      · left; right; exact h
    · simp only [List.mem_cons] at h ⊢
      rcases h with h | h
      · left; left; exact h
      · rcases ih h with h | h
        · left; right; exact h
        · right; exact h

theorem putLoop_of_nodup (g : String × Mlrval → String × Mlrval) (newrec l : Mlrmap)
    (h : (newrec.map Prod.fst ++ l.map (fun pe => (g pe).1)).Nodup) :
    putLoop g newrec l = newrec ++ l.map g := by
  induction l generalizing newrec with
  | nil => simp [putLoop]
  | cons pe next ih =>
    have hnot : (g pe).1 ∉ newrec.map Prod.fst := by
      intro hin
      have := List.nodup_append.mp h
      exact this.2.2 hin (by simp)
    simp only [putLoop]
    rw [PutReference_of_not_mem _ _ _ hnot, ih]
    · simp
    · simpa [List.map_append, List.append_assoc] using h

theorem putLoop_keys_nodup (g : String × Mlrval → String × Mlrval) (newrec l : Mlrmap)
    (h : (newrec.map Prod.fst).Nodup) : ((putLoop g newrec l).map Prod.fst).Nodup := by
  induction l generalizing newrec with
  | nil => simpa [putLoop] using h
  | cons pe next ih => exact ih _ (PutReference_keys_nodup _ _ _ h)

theorem putLoop_mem (g : String × Mlrval → String × Mlrval) (newrec l : Mlrmap)
    (e : String × Mlrval) (h : e ∈ putLoop g newrec l) : e ∈ newrec ∨ ∃ pe ∈ l, e = g pe := by
  induction l generalizing newrec with
  | nil => left; simpa [putLoop] using h
  | cons pe next ih =>
    rcases ih _ h with h1 | ⟨x, hx, rfl⟩
    · rcases PutReference_mem _ _ _ _ h1 with h2 | h2
      · left; exact h2
      · right; exact ⟨pe, by simp, h2⟩
    · right; exact ⟨x, by simp [hx], rfl⟩

theorem putLoop_idem (g : String × Mlrval → String × Mlrval) (hg : ∀ pe, g (g pe) = g pe)
    (l : Mlrmap) : putLoop g [] (putLoop g [] l) = putLoop g [] l := by
  have hfix : ∀ e ∈ putLoop g [] l, g e = e := by
    intro e he
    rcases putLoop_mem g [] l e he with h | ⟨x, _, rfl⟩
    · simp at h
    · exact hg x
  have hmap : (putLoop g [] l).map g = putLoop g [] l := by
    conv_rhs => rw [← List.map_id (putLoop g [] l)]
    exact List.map_congr_left (fun e he => by simpa using hfix e he)
  have hkeys : (putLoop g [] l).map (fun pe => (g pe).1) = (putLoop g [] l).map Prod.fst :=
    List.map_congr_left (fun e he => by rw [hfix e he])
  rw [putLoop_of_nodup g [] (putLoop g [] l)]
  · simpa using hmap
  · simpa [hkeys] using putLoop_keys_nodup g [] l (by simp)

/-! ## The clean-whitespace verb -/

theorem Transform_cases (doKeys doValues : Bool) (e : RecordAndContext) :
    (NewTransformerCleanWhitespace doKeys doValues).Transform e
      = if doKeys && doValues then cleanWhitespaceInKeysAndValues e
        else if doKeys then cleanWhitespaceInKeys e
        else cleanWhitespaceInValues e := by
  cases doKeys <;> cases doValues <;> rfl

/-- C2: in each mode (any `doKeys`, `doValues`), the stage handed an envelope with
the end-of-stream flag set sends exactly one envelope, that very envelope, and
nothing else. -/
theorem cleanWhitespace_forwards_end_of_stream (doKeys doValues : Bool)
    (inrecAndContext : RecordAndContext) (h : inrecAndContext.EndOfStream = true) :
    (NewTransformerCleanWhitespace doKeys doValues).Transform inrecAndContext
      = some [inrecAndContext] := by
  rw [Transform_cases]
  simp [cleanWhitespaceInKeysAndValues, cleanWhitespaceInKeys, cleanWhitespaceInValues, h]

theorem cleanWhitespace_forwards_end_of_stream_witness :
    (⟨none, ⟨"in.csv", 2⟩, true⟩ : RecordAndContext).EndOfStream = true ∧
    (NewTransformerCleanWhitespace true false).Transform ⟨none, ⟨"in.csv", 2⟩, true⟩
      = some [⟨none, ⟨"in.csv", 2⟩, true⟩] :=
  ⟨rfl, cleanWhitespace_forwards_end_of_stream true false ⟨none, ⟨"in.csv", 2⟩, true⟩ rfl⟩

/-- C8 as the code has it: in keys-only mode, a data record whose cleaned keys are
pairwise distinct gives exactly one record, with the fields of the input in the
same order, every key cleaned and every value untouched. -/
theorem cleanWhitespaceInKeys_distinct (record : Mlrmap) (context : Context)
    (h : (record.map (fun pe => cleanWhitespaceString pe.1)).Nodup) :
    cleanWhitespaceInKeys { Record := some record, Context := context, EndOfStream := false }
      = some [{ Record := some (record.map (fun pe => (cleanWhitespaceString pe.1, pe.2))),
                Context := context, EndOfStream := false }] := by
  simp only [cleanWhitespaceInKeys, NewRecordAndContext, NewMlrmapAsRecord, cleanKeysLoop_eq]
  rw [putLoop_of_nodup]
  · simp [MlrvalCleanWhitespace, MlrvalFromString, Mlrval.String]
  · simpa [MlrvalCleanWhitespace, MlrvalFromString, Mlrval.String] using h

theorem cleanWhitespaceInKeys_distinct_witness :
    ([(" a", (⟨"1"⟩ : Mlrval)), ("b  c", ⟨" 2"⟩)].map
        (fun pe => cleanWhitespaceString pe.1)).Nodup ∧
    cleanWhitespaceInKeys
        { Record := some [(" a", ⟨"1"⟩), ("b  c", ⟨" 2"⟩)], Context := ⟨"in.csv", 1⟩,
          EndOfStream := false }
      = some [{ Record := some ([(" a", (⟨"1"⟩ : Mlrval)), ("b  c", ⟨" 2"⟩)].map
                  (fun pe => (cleanWhitespaceString pe.1, pe.2))),
                Context := ⟨"in.csv", 1⟩, EndOfStream := false }] :=
  ⟨by decide, cleanWhitespaceInKeys_distinct _ _ (by decide)⟩

/-- C8 fails as stated: the two-field record with keys `" a"` and `"a"` comes out
of keys-only mode with one field, the value of the first field replaced. -/
theorem cleanWhitespaceInKeys_collision :
    cleanWhitespaceInKeys
        { Record := some [(" a", ⟨"1"⟩), ("a", ⟨"2"⟩)], Context := ⟨"in.csv", 1⟩,
          EndOfStream := false }
      = some [{ Record := some [("a", ⟨"2"⟩)], Context := ⟨"in.csv", 1⟩,
                EndOfStream := false }] := by
  decide

theorem cleanWhitespaceInKeysAndValues_idem (record : Mlrmap) (context : Context) :
    ∃ out, cleanWhitespaceInKeysAndValues
          { Record := some record, Context := context, EndOfStream := false } = some [out]
      ∧ cleanWhitespaceInKeysAndValues out = some [out] := by
  refine ⟨_, rfl, ?_⟩
  simp only [cleanWhitespaceInKeysAndValues, NewRecordAndContext, NewMlrmapAsRecord,
    cleanKeysAndValuesLoop_eq, Bool.not_false, if_true]
  rw [putLoop_idem]
  intro pe
  simp [MlrvalCleanWhitespace_idem, MlrvalCleanWhitespace, MlrvalFromString, Mlrval.String,
    cleanWhitespaceString_idem]

theorem cleanWhitespaceInKeys_idem (record : Mlrmap) (context : Context) :
    ∃ out, cleanWhitespaceInKeys
          { Record := some record, Context := context, EndOfStream := false } = some [out]
      ∧ cleanWhitespaceInKeys out = some [out] := by
  refine ⟨_, rfl, ?_⟩
  simp only [cleanWhitespaceInKeys, NewRecordAndContext, NewMlrmapAsRecord,
    cleanKeysLoop_eq, Bool.not_false, if_true]
  rw [putLoop_idem]
  intro pe
  simp [MlrvalCleanWhitespace, MlrvalFromString, Mlrval.String, cleanWhitespaceString_idem]

theorem cleanWhitespaceInValues_idem (record : Mlrmap) (context : Context) :
    ∃ out, cleanWhitespaceInValues
          { Record := some record, Context := context, EndOfStream := false } = some [out]
      ∧ cleanWhitespaceInValues out = some [out] := by
  refine ⟨_, rfl, ?_⟩
  simp [cleanWhitespaceInValues, cleanValuesLoop_eq, MlrvalCleanWhitespace_idem]

/-- C7: in each mode, the record the stage sends for a data envelope is sent back
unchanged when the stage is applied to it: one envelope out, and the stage applied
to that envelope sends that same envelope. -/
theorem cleanWhitespace_idempotent (doKeys doValues : Bool) (record : Mlrmap)
    (context : Context) :
    ∃ out, (NewTransformerCleanWhitespace doKeys doValues).Transform
          { Record := some record, Context := context, EndOfStream := false } = some [out]
      ∧ (NewTransformerCleanWhitespace doKeys doValues).Transform out = some [out] := by
  simp only [Transform_cases]
  cases doKeys <;> cases doValues
  · exact cleanWhitespaceInValues_idem record context
  · exact cleanWhitespaceInValues_idem record context
  · exact cleanWhitespaceInKeys_idem record context
  · exact cleanWhitespaceInKeysAndValues_idem record context

/-! ## The command-line parser -/

/-- C9, the code at `-k -v`: the parser does not exit; it returns the values-only
transformer and moves the argument index past both flags. -/
theorem parseCLI_keys_then_values :
    transformerCleanWhitespaceParseCLI 0 3 ["clean-whitespace", "-k", "-v"]
      = .returned (NewTransformerCleanWhitespace false true) 3 := by
  simp [transformerCleanWhitespaceParseCLI, parseCLILoop, HasPrefix, parseCLIFinish,
    transformerCleanWhitespaceUsage]

theorem parseCLI_values_then_keys :
    transformerCleanWhitespaceParseCLI 0 3 ["clean-whitespace", "-v", "-k"]
      = .returned (NewTransformerCleanWhitespace true false) 3 := by
  simp [transformerCleanWhitespaceParseCLI, parseCLILoop, HasPrefix, parseCLIFinish,
    transformerCleanWhitespaceUsage]

theorem parseCLI_no_flag :
    transformerCleanWhitespaceParseCLI 0 1 ["clean-whitespace"]
      = .returned (NewTransformerCleanWhitespace true true) 1 := by
  simp [transformerCleanWhitespaceParseCLI, parseCLILoop, parseCLIFinish,
    transformerCleanWhitespaceUsage]

/-! ## Pipeline construction -/

theorem launchLoop_spec (N : Nat) (i : Nat) (rest : List IRecordMapper)
    (hN : i + rest.length = N) :
    ∃ ls, launchLoop (N : Int)
            ((List.range (N - 1)).map (fun k => ({ id := .intermediate k, capacity := 1 } : Channel))) i rest
          = .ok ls ∧
      ∀ j, ls[j]? = (rest[j]?).map (fun m =>
        ({ ichan := if i + j = 0 then .inrecsAndContexts else .intermediate (i + j - 1),
           recordMapper := m,
           ochan := if i + j + 1 = N then .outrecsAndContexts else .intermediate (i + j) }
          : Launch)) := by
  induction rest generalizing i with
  | nil => exact ⟨[], rfl, fun j => by simp⟩
  | cons m rest ih =>
    simp only [List.length_cons] at hN
    obtain ⟨ls, hls, hget⟩ := ih (i + 1) (by omega)
    have hin : (if i > 0 then
          match ((List.range (N - 1)).map
              (fun k => ({ id := .intermediate k, capacity := 1 } : Channel)))[i - 1]? with
          | some ch => (Except.ok ch.id : Except GoPanic ChanId)
          | none => .error .indexOutOfRange
        else .ok .inrecsAndContexts)
        = .ok (if i + 0 = 0 then .inrecsAndContexts else .intermediate (i + 0 - 1)) := by
      by_cases hi : i = 0
      · simp [hi]
      · have h1 : i - 1 < N - 1 := by omega
        have h2 : i > 0 := by omega
        simp [hi, h1, h2, List.getElem?_map, List.getElem?_range]
    have hout : (if (i : Int) < (N : Int) - 1 then
          match ((List.range (N - 1)).map
              (fun k => ({ id := .intermediate k, capacity := 1 } : Channel)))[i]? with
          | some ch => (Except.ok ch.id : Except GoPanic ChanId)
          | none => .error .indexOutOfRange
        else .ok .outrecsAndContexts)
        = .ok (if i + 0 + 1 = N then .outrecsAndContexts else .intermediate (i + 0)) := by
      by_cases hi : i + 1 = N
      · have : ¬ ((i : Int) < (N : Int) - 1) := by omega
        simp [hi, this]
      · have h1 : i < N - 1 := by omega
        have h2 : (i : Int) < (N : Int) - 1 := by omega
        simp [hi, h1, h2, List.getElem?_map, List.getElem?_range]
    refine ⟨({ ichan := if i + 0 = 0 then .inrecsAndContexts else .intermediate (i + 0 - 1),
               recordMapper := m,
               ochan := if i + 0 + 1 = N then .outrecsAndContexts else .intermediate (i + 0) }
              : Launch) :: ls, ?_, ?_⟩
    · simp only [launchLoop]
      rw [hin, hout, hls]
    · intro j
      cases j with
      | zero => simp
      | succ j =>
        simp only [List.getElem?_cons_succ, hget j]
        have e1 : i + 1 + j = i + (j + 1) := by omega
        simp only [e1]

/-- C10: called with an empty stage list, `ChainMapper` panics in `make`, at its
first allocation: it returns no wiring, so no channel was made, no goroutine was
started, and neither external channel was touched. -/
theorem ChainMapper_empty_fails : ChainMapper [] = .error .makesliceLenOutOfRange := by
  rfl

theorem ChainMapper_ok (recordMappers : List IRecordMapper)
    (hN : 1 ≤ recordMappers.length) :
    ∃ w, ChainMapper recordMappers = .ok w ∧
      w.intermediateChannels
        = (List.range (recordMappers.length - 1)).map
            (fun k => ({ id := .intermediate k, capacity := 1 } : Channel)) ∧
      w.intermediateChannels.length = recordMappers.length - 1 ∧
      (∀ ch ∈ w.intermediateChannels, ch.capacity = 1) ∧
      w.launched.length = recordMappers.length ∧
      (∀ i, w.launched[i]? = (recordMappers[i]?).map (fun m =>
        ({ ichan := if i = 0 then .inrecsAndContexts else .intermediate (i - 1),
           recordMapper := m,
           ochan := if i + 1 = recordMappers.length then .outrecsAndContexts
                    else .intermediate i } : Launch))) ∧
      (∀ k i l, k + 1 < recordMappers.length → w.launched[i]? = some l →
        ((l.ochan = .intermediate k ↔ i = k) ∧ (l.ichan = .intermediate k ↔ i = k + 1))) := by
  obtain ⟨ls, hls, hget⟩ := launchLoop_spec recordMappers.length 0 recordMappers (by simp)
  simp only [Nat.zero_add] at hget
  have hneg : ¬ ((recordMappers.length : Int) - 1 < 0) := by omega
  have hto : ((recordMappers.length : Int) - 1).toNat = recordMappers.length - 1 := by omega
  have hlen : ls.length = recordMappers.length := by
    apply le_antisymm
    · by_contra hcon
      have h1 := hget recordMappers.length
      have h2 : recordMappers.length < ls.length := by omega
      rw [List.getElem?_eq_getElem h2, List.getElem?_eq_none (le_refl _)] at h1
      simp at h1
    · by_contra hcon
      have h1 := hget ls.length
      have h2 : ls.length < recordMappers.length := by omega
      rw [List.getElem?_eq_getElem h2, List.getElem?_eq_none (le_refl _)] at h1
      simp at h1
  refine ⟨{ intermediateChannels := _, launched := ls }, ?_, rfl, ?_, ?_, hlen, hget, ?_⟩
  · simp only [ChainMapper, hneg, if_false, hto, hls]
  · simp
  · intro ch hch
    simp only [List.mem_map] at hch
    obtain ⟨k, _, rfl⟩ := hch
    rfl
  · intro k i l hk hl
    have h1 := hget i
    rw [hl] at h1
    cases hm : recordMappers[i]? with
    | none => simp [hm] at h1
    | some m =>
      have hi : i < recordMappers.length := by
        by_contra hcon
        rw [List.getElem?_eq_none (by omega)] at hm
        simp at hm
      simp only [hm, Option.map_some', Option.some.injEq] at h1
      subst h1
      constructor
      · by_cases h2 : i + 1 = recordMappers.length
        · simp only [h2, if_true]
          constructor
          · intro h3; cases h3
          · intro h3; omega
        · simp [h2]
      · by_cases h2 : i = 0
        · simp only [h2, if_true]
          constructor
          · intro h3; cases h3
          · intro h3; omega
        · simp only [h2, if_false, ChanId.intermediate.injEq]
          omega

/-- C5: for a stage list of length N >= 1, `ChainMapper` makes N-1 intermediate
channels, each of capacity 1, and starts one goroutine per stage, in order;
goroutine i reads the external input when i = 0 and intermediate channel i-1
otherwise, and writes the external output when i = N-1 and intermediate channel i
otherwise; so intermediate channel k is written by goroutine k only and read by
goroutine k+1 only. -/
theorem ChainMapper_wiring (recordMappers : List IRecordMapper)
    (hN : 1 ≤ recordMappers.length) :
    ∃ w, ChainMapper recordMappers = .ok w ∧
      w.intermediateChannels
        = (List.range (recordMappers.length - 1)).map
            (fun k => ({ id := .intermediate k, capacity := 1 } : Channel)) ∧
      w.intermediateChannels.length = recordMappers.length - 1 ∧
      (∀ ch ∈ w.intermediateChannels, ch.capacity = 1) ∧
      w.launched.length = recordMappers.length ∧
      (∀ i, w.launched[i]? = (recordMappers[i]?).map (fun m =>
        ({ ichan := if i = 0 then .inrecsAndContexts else .intermediate (i - 1),
           recordMapper := m,
           ochan := if i + 1 = recordMappers.length then .outrecsAndContexts
                    else .intermediate i } : Launch))) ∧
      (∀ k i l, k + 1 < recordMappers.length → w.launched[i]? = some l →
        ((l.ochan = .intermediate k ↔ i = k) ∧ (l.ichan = .intermediate k ↔ i = k + 1))) :=
  ChainMapper_ok recordMappers hN

theorem ChainMapper_wiring_witness :
    1 ≤ [passThrough, swallow, passThrough].length ∧
    ∃ w, ChainMapper [passThrough, swallow, passThrough] = .ok w ∧
      w.intermediateChannels.length = 2 ∧ w.launched.length = 3 ∧
      w.launched[1]? = some
        { ichan := .intermediate 0, recordMapper := swallow, ochan := .intermediate 1 } := by
  obtain ⟨w, h1, _, h3, _, h5, h6, _⟩ :=
    ChainMapper_wiring [passThrough, swallow, passThrough] (by decide)
  exact ⟨by decide, w, h1, h3, h5, h6 1⟩

theorem ChainMapper_single (m : IRecordMapper) :
    ChainMapper [m] = .ok
      { intermediateChannels := [],
        launched := [{ ichan := .inrecsAndContexts, recordMapper := m,
                       ochan := .outrecsAndContexts }] } := by
  rfl

/-! ## The runner loop -/

theorem call_of_returns (m : IRecordMapper) (hm : ∀ s x, (m.Map s x).isSome = true)
    (e : RecordAndContext) : ∃ s outs, m.call e = some (m.withState s, outs) := by
  have h := hm m.state e
  unfold IRecordMapper.call
  cases hc : m.Map m.state e with
  | none => simp [hc] at h
  | some p => exact ⟨p.1, p.2, rfl⟩

theorem runSingleMapper_all_data (m : IRecordMapper) (hm : ∀ s x, (m.Map s x).isSome = true)
    (xs : List RecordAndContext) (hxs : ∀ x ∈ xs, x.Record ≠ none) :
    (runSingleMapper m xs).invoked = xs ∧ (runSingleMapper m xs).status = .awaitingInput := by
  induction xs generalizing m with
  | nil => exact ⟨rfl, rfl⟩
  | cons x later ih =>
    obtain ⟨s, outs, hc⟩ := call_of_returns m hm x
    have hx : x.Record ≠ none := hxs x (by simp)
    have ih1 := ih (m.withState s) hm (fun y hy => hxs y (by simp [hy]))
    simp only [runSingleMapper, hc, hx, if_false]
    exact ⟨by rw [ih1.1], ih1.2⟩

theorem runSingleMapper_to_end (m : IRecordMapper) (hm : ∀ s x, (m.Map s x).isSome = true)
    (pre : List RecordAndContext) (e : RecordAndContext) (post : List RecordAndContext)
    (hpre : ∀ x ∈ pre, x.Record ≠ none) (he : e.Record = none) :
    (runSingleMapper m (pre ++ e :: post)).invoked = pre ++ [e] ∧
      (runSingleMapper m (pre ++ e :: post)).status = .exited := by
  induction pre generalizing m with
  | nil =>
    obtain ⟨s, outs, hc⟩ := call_of_returns m hm e
    simp [runSingleMapper, hc, he]
  | cons x later ih =>
    obtain ⟨s, outs, hc⟩ := call_of_returns m hm x
    have hx : x.Record ≠ none := hpre x (by simp)
    have ih1 := ih (m.withState s) hm (fun y hy => hpre y (by simp [hy]))
    simp only [List.cons_append, runSingleMapper, hc, hx, if_false]
    exact ⟨congrArg (x :: ·) ih1.1, ih1.2⟩

/-- C3 as the code has it: with a stage whose calls return, `runSingleMapper` calls
the stage once on each envelope received, in order, up to and including the first
envelope with a nil record, and leaves its loop right after that call, whatever
follows on the input; on an input in which every envelope carries a record it calls
the stage on each of them and is still in its loop, waiting. -/
theorem runSingleMapper_stops_at_first_end (recordMapper : IRecordMapper)
    (hm : ∀ s x, (recordMapper.Map s x).isSome = true) (input : List RecordAndContext) :
    (∀ pre e post, input = pre ++ e :: post → (∀ x ∈ pre, x.Record ≠ none) →
        e.Record = none →
        (runSingleMapper recordMapper input).invoked = pre ++ [e] ∧
          (runSingleMapper recordMapper input).status = .exited) ∧
    ((∀ x ∈ input, x.Record ≠ none) →
        (runSingleMapper recordMapper input).invoked = input ∧
          (runSingleMapper recordMapper input).status = .awaitingInput) := by
  constructor
  · intro pre e post hin hpre he
    subst hin
    exact runSingleMapper_to_end recordMapper hm pre e post hpre he
  · exact runSingleMapper_all_data recordMapper hm input

/-- C3 fails as stated: with clean-whitespace in values-only mode as the stage, on
a data envelope, then an envelope with a nil record and the end-of-stream flag
cleared, then the terminal envelope, the runner calls the stage on the first two
and the second call panics on the nil record: the loop is never left through its
`break`, and the stage is never called on the terminal envelope. -/
theorem runSingleMapper_stage_panics :
    runSingleMapper (NewTransformerCleanWhitespace false true).asMapper
        [⟨some [("a", ⟨" x "⟩)], ⟨"in.csv", 1⟩, false⟩, ⟨none, ⟨"in.csv", 2⟩, false⟩,
          ⟨none, ⟨"in.csv", 2⟩, true⟩]
      = { invoked := [⟨some [("a", ⟨" x "⟩)], ⟨"in.csv", 1⟩, false⟩,
            ⟨none, ⟨"in.csv", 2⟩, false⟩],
          emitted := [⟨some [("a", ⟨"x"⟩)], ⟨"in.csv", 1⟩, false⟩],
          status := .panicked } := by
  decide

/-! ## The output of one runner -/

theorem runnerOutput_nil (m : IRecordMapper) : runnerOutput m [] = some [] := by
  simp [runnerOutput, runSingleMapper]

theorem runnerOutput_cons (m : IRecordMapper) (e : RecordAndContext)
    (later : List RecordAndContext) :
    runnerOutput m (e :: later) =
      match m.call e with
      | none => none
      | some (m1, outs) =>
        if e.Record = none then some outs
        else (runnerOutput m1 later).map (outs ++ ·) := by
  unfold runnerOutput
  simp only [runSingleMapper]
  cases hc : m.call e with
  | none => simp
  | some p =>
    obtain ⟨m1, outs⟩ := p
    simp only
    by_cases he : e.Record = none
    · simp [he]
    · simp only [he, if_false]
      by_cases hp : (runSingleMapper m1 later).status = .panicked
      · simp [hp]
      · simp [hp]

theorem isData_or_isTerminal_head {e : RecordAndContext} {later : List RecordAndContext}
    (h : WellFormedStream (e :: later)) :
    (IsTerminal e ∧ later = []) ∨ (IsData e ∧ WellFormedStream later) := by
  obtain ⟨ds, t, hxs, hds, ht⟩ := h
  cases ds with
  | nil =>
    simp only [List.nil_append, List.cons.injEq] at hxs
    left; exact ⟨hxs.1 ▸ ht, hxs.2⟩
  | cons d ds =>
    simp only [List.cons_append, List.cons.injEq] at hxs
    right
    exact ⟨hxs.1 ▸ hds d (by simp), ds, t, hxs.2, fun x hx => hds x (by simp [hx]), ht⟩

theorem wellFormedStream_ne_nil {xs : List RecordAndContext} (h : WellFormedStream xs) :
    xs ≠ [] := by
  obtain ⟨ds, t, hxs, _, _⟩ := h
  subst hxs
  simp

theorem StageContract.withState {m : IRecordMapper} (h : StageContract m) (s : m.State) :
    StageContract (m.withState s) := h

theorem StageContract.call_data {m : IRecordMapper} (h : StageContract m)
    {e : RecordAndContext} (he : IsData e) :
    ∃ s outs, m.call e = some (m.withState s, outs) ∧ ∀ o ∈ outs, IsData o := by
  obtain ⟨s1, outs, h1, h2⟩ := (h m.state e).1 he
  exact ⟨s1, outs, by simp [IRecordMapper.call, h1], h2⟩

theorem StageContract.call_terminal {m : IRecordMapper} (h : StageContract m)
    {e : RecordAndContext} (he : IsTerminal e) :
    ∃ s pre, m.call e = some (m.withState s, pre ++ [e]) ∧ ∀ o ∈ pre, IsData o := by
  obtain ⟨s1, pre, h1, h2⟩ := (h m.state e).2 he
  exact ⟨s1, pre, by simp [IRecordMapper.call, h1], h2⟩

theorem runnerOutput_wellFormed (m : IRecordMapper) (hm : StageContract m)
    (xs : List RecordAndContext) (hxs : WellFormedStream xs) :
    ∃ ys, runnerOutput m xs = some ys ∧ WellFormedStream ys := by
  induction xs generalizing m with
  | nil => exact absurd rfl (wellFormedStream_ne_nil hxs)
  | cons e later ih =>
    rcases isData_or_isTerminal_head hxs with ⟨ht, _⟩ | ⟨hd, hl⟩
    · obtain ⟨s, pre, hc, hpre⟩ := hm.call_terminal ht
      refine ⟨pre ++ [e], ?_, pre, e, rfl, hpre, ht⟩
      rw [runnerOutput_cons, hc]
      simp [ht.1]
    · obtain ⟨s, outs, hc, houts⟩ := hm.call_data hd
      obtain ⟨ys, hys, ds, t, hy, hds, ht⟩ := ih (m.withState s) (hm.withState s) hl
      refine ⟨outs ++ ys, ?_, outs ++ ds, t, by simp [hy], ?_, ht⟩
      · rw [runnerOutput_cons, hc]
        simp [hd.1, hys]
      · intro x hx
        rcases List.mem_append.mp hx with h1 | h1
        · exact houts x h1
        · exact hds x h1

/-! ## What is yet to arrive, and how a step changes it -/

theorem arriving_succ (c : Config) (i : Nat) :
    c.arriving (i + 1) = (futureOf c.goroutines[i]? (c.arriving i)).map (c.outBuf i ++ ·) := rfl

theorem arriving_congr_below (c c1 : Config) (hs : c1.source = c.source) (n : Nat)
    (h : ∀ j, j < n → c1.goroutines[j]? = c.goroutines[j]? ∧ c1.outBuf j = c.outBuf j) :
    c1.arriving n = c.arriving n := by
  induction n with
  | zero => simp [Config.arriving, hs]
  | succ n ih =>
    rw [arriving_succ, arriving_succ, ih (fun j hj => h j (by omega)), (h n (by omega)).1,
      (h n (by omega)).2]

theorem arriving_congr_above (c c1 : Config) (k : Nat) (hk : c1.arriving k = c.arriving k)
    (h : ∀ j, k ≤ j → c1.goroutines[j]? = c.goroutines[j]? ∧ c1.outBuf j = c.outBuf j)
    (n : Nat) (hn : k ≤ n) : c1.arriving n = c.arriving n := by
  induction n with
  | zero =>
    have : k = 0 := by omega
    subst this; exact hk
  | succ n ih =>
    by_cases hkn : k = n + 1
    · subst hkn; exact hk
    · rw [arriving_succ, arriving_succ, ih (by omega), (h n (by omega)).1, (h n (by omega)).2]

theorem outBuf_setGoroutine (c : Config) (k : Nat) (g : Goroutine) (j : Nat) :
    (c.setGoroutine k g).outBuf j = c.outBuf j := by
  simp [Config.outBuf, Config.setGoroutine]

theorem goroutines_setGoroutine_ne (c : Config) (k : Nat) (g : Goroutine) (j : Nat)
    (h : j ≠ k) : (c.setGoroutine k g).goroutines[j]? = c.goroutines[j]? := by
  simp only [Config.setGoroutine]
  rw [List.getElem?_set_ne (Ne.symm h)]

theorem goroutines_setGoroutine_eq (c : Config) (k : Nat) (g g0 : Goroutine)
    (h : c.goroutines[k]? = some g0) : (c.setGoroutine k g).goroutines[k]? = some g := by
  have hk : k < c.goroutines.length := by
    by_contra hcon
    rw [List.getElem?_eq_none (by omega)] at h
    cases h
  simp only [Config.setGoroutine]
  rw [List.getElem?_set_self hk]

theorem lt_length_of_getElem? {α : Type _} {l : List α} {k : Nat} {a : α}
    (h : l[k]? = some a) : k < l.length := by
  by_contra hcon
  rw [List.getElem?_eq_none (by omega)] at h
  cases h

theorem Config.Flowing.arriving_succ_some {c : Config} {R : List RecordAndContext}
    (hf : c.Flowing R) {k : Nat} (hk : k < c.goroutines.length) :
    ∃ ys, c.arriving (k + 1) = some ys := by
  by_cases hlast : k + 1 = c.goroutines.length
  · exact ⟨R, hlast ▸ hf.2⟩
  · have hk1 : k + 1 < c.goroutines.length := by omega
    obtain ⟨xs, hxs, _⟩ := hf.1 (k + 1) c.goroutines[k + 1] (List.getElem?_eq_getElem hk1)
    exact ⟨xs, hxs⟩

theorem Config.Flowing.future_some {c : Config} {R : List RecordAndContext}
    (hf : c.Flowing R) {k : Nat} (hk : k < c.goroutines.length) :
    ∃ ys, futureOf c.goroutines[k]? (c.arriving k) = some ys := by
  obtain ⟨zs, hzs⟩ := hf.arriving_succ_some hk
  rw [arriving_succ] at hzs
  cases hfu : futureOf c.goroutines[k]? (c.arriving k) with
  | none => simp [hfu] at hzs
  | some ys => exact ⟨ys, rfl⟩


theorem arriving_setGoroutine_le (c : Config) (k : Nat) (g : Goroutine) (i : Nat)
    (hi : i ≤ k) : (c.setGoroutine k g).arriving i = c.arriving i :=
  arriving_congr_below c (c.setGoroutine k g) rfl i
    (fun j hj => ⟨goroutines_setGoroutine_ne c k g j (by omega), outBuf_setGoroutine c k g j⟩)

theorem arriving_setGoroutine_succ (c : Config) (k : Nat) (g g0 : Goroutine)
    (h : c.goroutines[k]? = some g0) :
    (c.setGoroutine k g).arriving (k + 1)
      = (futureOf (some g) (c.arriving k)).map (c.outBuf k ++ ·) := by
  rw [arriving_succ, goroutines_setGoroutine_eq c k g g0 h, outBuf_setGoroutine,
    arriving_setGoroutine_le c k g k (le_refl _)]

theorem effect_of_parts (c c2 : Config) (k : Nat) (g g1 : Goroutine)
    (hg : c.goroutines[k]? = some g)
    (hgs : c2.goroutines = c.goroutines) (hcap : c2.capacity = c.capacity)
    (hbelow : ∀ i, i < k → c2.arriving i = c.arriving i)
    (hsucc : (futureOf (some g1) (c2.arriving k)).map (c2.outBuf k ++ ·)
      = (futureOf (some g) (c.arriving k)).map (c.outBuf k ++ ·))
    (habove : ∀ j, k < j → c2.outBuf j = c.outBuf j)
    (hi : g1.ichan = g.ichan) (ho : g1.ochan = g.ochan)
    (hat : (g.pc = .receiving ∧ ∃ e X outs, c.arriving k = some (e :: X) ∧
        c2.arriving k = some X ∧ g1.pc = .sending outs (e.Record = none) ∧
        futureOf (some g1) (some X) = futureOf (some g) (some (e :: X))) ∨
     (∃ o rest b, g.pc = .sending (o :: rest) b ∧ g1.pc = .sending rest b ∧
        c2.arriving k = c.arriving k ∧ g1.recordMapper = g.recordMapper) ∨
     (∃ b, g.pc = .sending [] b ∧ g1.pc = (if b then .exited else .receiving) ∧
        c2.arriving k = c.arriving k ∧ g1.recordMapper = g.recordMapper)) :
    Effect c k (c2.setGoroutine k g1) := by
  have hg2 : c2.goroutines[k]? = some g := by rw [hgs]; exact hg
  have hk1 : (c2.setGoroutine k g1).arriving (k + 1) = c.arriving (k + 1) := by
    rw [arriving_setGoroutine_succ c2 k g1 g hg2, hsucc, arriving_succ, hg]
  have hother : ∀ j, j ≠ k → (c2.setGoroutine k g1).goroutines[j]? = c.goroutines[j]? := by
    intro j hj
    rw [goroutines_setGoroutine_ne c2 k g1 j hj, hgs]
  refine ⟨by simp [Config.setGoroutine, hgs], hcap, hother, ?_, g, g1, hg,
    goroutines_setGoroutine_eq c2 k g1 g hg2, hi, ho, ?_⟩
  · intro i hik
    rcases Nat.lt_or_gt_of_ne hik with hlt | hgt
    · rw [arriving_setGoroutine_le c2 k g1 i (by omega)]
      exact hbelow i hlt
    · exact arriving_congr_above c (c2.setGoroutine k g1) (k + 1) hk1
        (fun j hj => ⟨hother j (by omega), by
          rw [outBuf_setGoroutine]; exact habove j (by omega)⟩) i (by omega)
  · have hk : (c2.setGoroutine k g1).arriving k = c2.arriving k :=
      arriving_setGoroutine_le c2 k g1 k (le_refl _)
    rw [hk]
    exact hat

theorem step_tau_effect (c : Config) (k : Nat) (g : Goroutine) (b : Bool)
    (hg : c.goroutines[k]? = some g) (hpc : g.pc = .sending [] b) :
    Effect c k (c.setGoroutine k { g with pc := if b then .exited else .receiving }) := by
  refine effect_of_parts c c k g _ hg rfl rfl (fun _ _ => rfl) ?_ (fun _ _ => rfl) rfl rfl
    (Or.inr (Or.inr ⟨b, hpc, rfl, rfl, rfl⟩))
  congr 1
  cases b
  · simp only [futureOf, hpc, Bool.false_eq_true, if_false]
    cases c.arriving k with
    | none => rfl
    | some xs =>
      simp only [Option.some_bind]
      cases runnerOutput g.recordMapper xs <;> simp
  · simp [futureOf, hpc]

theorem send_parts (c : Config) (hw : c.Wired) (k : Nat) (g : Goroutine)
    (hg : c.goroutines[k]? = some g) (o : RecordAndContext) (c2 : Config)
    (hs : c.send o g.ochan = some c2) :
    c2.goroutines = c.goroutines ∧ c2.capacity = c.capacity ∧ c2.source = c.source ∧
      c2.outBuf k = c.outBuf k ++ [o] ∧ ∀ j, j ≠ k → c2.outBuf j = c.outBuf j := by
  have hoc := (hw.1 k g hg).2
  by_cases hlast : k + 1 = c.goroutines.length
  · rw [hoc, if_pos hlast] at hs
    simp only [Config.send, Option.some.injEq] at hs
    subst hs
    refine ⟨rfl, rfl, rfl, by simp [Config.outBuf, hlast], ?_⟩
    intro j hj
    have : j + 1 ≠ c.goroutines.length := by omega
    simp [Config.outBuf, this]
  · rw [hoc, if_neg hlast] at hs
    simp only [Config.send] at hs
    split at hs
    · simp only [Option.some.injEq] at hs
      subst hs
      refine ⟨rfl, rfl, rfl, by simp [Config.outBuf, hlast], ?_⟩
      intro j hj
      simp [Config.outBuf, Function.update_noteq hj]
    · cases hs

theorem step_send_effect (c : Config) (hw : c.Wired) (k : Nat) (g : Goroutine)
    (o : RecordAndContext) (rest : List RecordAndContext) (b : Bool)
    (hg : c.goroutines[k]? = some g) (hpc : g.pc = .sending (o :: rest) b) (c2 : Config)
    (hs : c.send o g.ochan = some c2) :
    Effect c k (c2.setGoroutine k { g with pc := .sending rest b }) := by
  obtain ⟨hgs, hcap, hsrc, hbk, hbo⟩ := send_parts c hw k g hg o c2 hs
  have hle : ∀ i, i ≤ k → c2.arriving i = c.arriving i := fun i hi =>
    arriving_congr_below c c2 hsrc i (fun j hj => ⟨by rw [hgs], hbo j (by omega)⟩)
  refine effect_of_parts c c2 k g _ hg hgs hcap (fun i hi => hle i (by omega)) ?_
    (fun j hj => hbo j (by omega)) rfl rfl
    (Or.inr (Or.inl ⟨o, rest, b, hpc, rfl, hle k (le_refl _), rfl⟩))
  rw [hle k (le_refl _), hbk]
  cases b
  · simp only [futureOf, hpc, Bool.false_eq_true, if_false]
    cases c.arriving k with
    | none => rfl
    | some xs =>
      simp only [Option.some_bind]
      cases runnerOutput g.recordMapper xs <;> simp
  · simp [futureOf, hpc]

theorem recv_parts (c : Config) (hw : c.Wired) (R : List RecordAndContext)
    (hf : c.Flowing R) (k : Nat) (g : Goroutine)
    (hg : c.goroutines[k]? = some g) (e : RecordAndContext) (c2 : Config)
    (hr : c.recv g.ichan = some (e, c2)) :
    c2.goroutines = c.goroutines ∧ c2.capacity = c.capacity ∧
      (∀ j, k ≤ j → c2.outBuf j = c.outBuf j) ∧
      (∀ i, i < k → c2.arriving i = c.arriving i) ∧
      ∃ X, c.arriving k = some (e :: X) ∧ c2.arriving k = some X := by
  have hic := (hw.1 k g hg).1
  have hklt : k < c.goroutines.length := lt_length_of_getElem? hg
  cases k with
  | zero =>
    rw [hic, if_pos rfl] at hr
    simp only [Config.recv] at hr
    cases hsrc : c.source with
    | nil => simp [hsrc] at hr
    | cons e1 rest =>
      simp only [hsrc, Option.some.injEq, Prod.mk.injEq] at hr
      obtain ⟨rfl, rfl⟩ := hr
      exact ⟨rfl, rfl, fun j _ => rfl, fun i hi => absurd hi (by omega),
        rest, by simp [Config.arriving, hsrc], rfl⟩
  | succ n =>
    rw [hic, if_neg (by omega)] at hr
    simp only [Config.recv, Nat.add_sub_cancel] at hr
    cases hbuf : c.buffers n with
    | nil => simp [hbuf] at hr
    | cons e1 rest =>
      simp only [hbuf, Option.some.injEq, Prod.mk.injEq] at hr
      obtain ⟨rfl, hc2⟩ := hr
      have hgs : c2.goroutines = c.goroutines := by rw [← hc2]
      have hsrc : c2.source = c.source := by rw [← hc2]
      have hsink : c2.sink = c.sink := by rw [← hc2]
      have hbufs : c2.buffers = Function.update c.buffers n rest := by rw [← hc2]
      have hne : n + 1 ≠ c.goroutines.length := by omega
      have hob : ∀ j, j ≠ n → c2.outBuf j = c.outBuf j := by
        intro j hj
        simp [Config.outBuf, hgs, hsink, hbufs, Function.update_noteq hj]
      have hbelow : ∀ i, i ≤ n → c2.arriving i = c.arriving i := fun i hi =>
        arriving_congr_below c c2 hsrc i (fun j hj => ⟨by rw [hgs], hob j (by omega)⟩)
      refine ⟨hgs, by rw [← hc2], fun j hj => hob j (by omega),
        fun i hi => hbelow i (by omega), ?_⟩
      obtain ⟨ys, hys⟩ := hf.future_some (show n < c.goroutines.length by omega)
      refine ⟨rest ++ ys, ?_, ?_⟩
      · rw [arriving_succ, hys]
        simp [Config.outBuf, hne, hbuf]
      · rw [arriving_succ, hbelow n (le_refl _), hgs, hys]
        simp [Config.outBuf, hgs, hne, hbufs]

theorem step_recv_effect (c : Config) (hw : c.Wired) (R : List RecordAndContext)
    (hf : c.Flowing R) (k : Nat) (g : Goroutine)
    (hg : c.goroutines[k]? = some g) (hpc : g.pc = .receiving) (e : RecordAndContext)
    (c2 : Config) (hr : c.recv g.ichan = some (e, c2)) (m1 : IRecordMapper)
    (outs : List RecordAndContext) (hc : g.recordMapper.call e = some (m1, outs)) :
    Effect c k (c2.setGoroutine k
      { g with recordMapper := m1, pc := .sending outs (e.Record = none) }) := by
  obtain ⟨hgs, hcap, hob, hbelow, X, hX, hX2⟩ := recv_parts c hw R hf k g hg e c2 hr
  have hfut : futureOf
      (some ({ g with recordMapper := m1, pc := .sending outs (e.Record = none) } : Goroutine))
      (some X)
      = futureOf (some g) (some (e :: X)) := by
    simp only [futureOf, hpc, Option.some_bind]
    rw [runnerOutput_cons, hc]
    by_cases he : e.Record = none
    · simp [he]
    · simp [he]
  refine effect_of_parts c c2 k g _ hg hgs hcap hbelow ?_ (fun j hj => hob j (by omega))
    rfl rfl (Or.inl ⟨hpc, e, X, outs, hX, hX2, rfl, hfut⟩)
  rw [hX, hX2, hfut, hob k (le_refl _)]

theorem step_effect (c : Config) (hw : c.Wired) (R : List RecordAndContext)
    (hf : c.Flowing R) (k : Nat) (c1 : Config) (hs : c.step k = .next c1) :
    Effect c k c1 := by
  unfold Config.step at hs
  cases hg : c.goroutines[k]? with
  | none => simp [hg] at hs
  | some g =>
    simp only [hg] at hs
    cases hpc : g.pc with
    | exited => simp [hpc] at hs
    | receiving =>
      simp only [hpc] at hs
      cases hr : c.recv g.ichan with
      | none => simp [hr] at hs
      | some p =>
        obtain ⟨e, c2⟩ := p
        simp only [hr] at hs
        cases hc : g.recordMapper.call e with
        | none => simp [hc] at hs
        | some q =>
          obtain ⟨m1, outs⟩ := q
          simp only [hc, StepResult.next.injEq] at hs
          subst hs
          exact step_recv_effect c hw R hf k g hg hpc e c2 hr m1 outs hc
    | sending pending b =>
      cases pending with
      | nil =>
        simp only [hpc, StepResult.next.injEq] at hs
        subst hs
        exact step_tau_effect c k g b hg hpc
      | cons o rest =>
        simp only [hpc] at hs
        cases hsd : c.send o g.ochan with
        | none => simp [hsd] at hs
        | some c2 =>
          simp only [hsd, StepResult.next.injEq] at hs
          subst hs
          exact step_send_effect c hw k g o rest b hg hpc c2 hsd

/-! ## The invariant is kept by every step -/

theorem Effect.wired {c c1 : Config} {k : Nat} (he : Effect c k c1) (hw : c.Wired) :
    c1.Wired := by
  obtain ⟨hlen, hcap, hother, _, g, g1, hg, hg1, hi, ho, _⟩ := he
  refine ⟨?_, ?_⟩
  · intro i gi hgi
    by_cases hik : i = k
    · subst hik
      rw [hg1] at hgi
      cases hgi
      rw [hi, ho, hlen]
      exact hw.1 i g hg
    · rw [hother i hik] at hgi
      rw [hlen]
      exact hw.1 i gi hgi
  · intro j hj
    rw [hcap]
    exact hw.2 j (by rw [← hlen]; exact hj)

theorem Effect.flowing {c c1 : Config} {k : Nat} (he : Effect c k c1)
    {R : List RecordAndContext} (hf : c.Flowing R) : c1.Flowing R := by
  obtain ⟨hlen, _, hother, harr, g, g1, hg, hg1, _, _, hat⟩ := he
  have hk : k < c.goroutines.length := lt_length_of_getElem? hg
  refine ⟨?_, ?_⟩
  · intro i gi hgi
    by_cases hik : i = k
    · subst hik
      rw [hg1] at hgi
      cases hgi
      obtain ⟨xs, hxs, hcond⟩ := hf.1 i g hg
      rcases hat with ⟨hpc, e, X, outs, hX, hX1, hpc1, _⟩ | ⟨o, rest, b, hpc, hpc1, ha, _⟩ |
        ⟨b, hpc, hpc1, ha, _⟩
      · refine ⟨X, hX1, ?_⟩
        rw [hX] at hxs
        cases hxs
        simp only [hpc, Pc.seenEnd, Bool.false_eq_true, if_false] at hcond
        simp only [hpc1, Pc.seenEnd, decide_eq_true_eq]
        rcases isData_or_isTerminal_head hcond with ⟨ht, hnil⟩ | ⟨hd, hl⟩
        · simp [ht.1, hnil]
        · simp [hd.1, hl]
      · refine ⟨xs, by rw [ha]; exact hxs, ?_⟩
        simpa [hpc, hpc1, Pc.seenEnd] using hcond
      · refine ⟨xs, by rw [ha]; exact hxs, ?_⟩
        cases b <;> simpa [hpc, hpc1, Pc.seenEnd] using hcond
    · rw [hother i hik] at hgi
      rw [harr i hik]
      exact hf.1 i gi hgi
  · rw [hlen, harr _ (by omega)]
    exact hf.2

theorem step_ne_panicked (c : Config) (hw : c.Wired) (R : List RecordAndContext)
    (hf : c.Flowing R) (k : Nat) : c.step k ≠ .panicked := by
  intro hs
  unfold Config.step at hs
  cases hg : c.goroutines[k]? with
  | none => simp [hg] at hs
  | some g =>
    simp only [hg] at hs
    cases hpc : g.pc with
    | exited => simp [hpc] at hs
    | receiving =>
      simp only [hpc] at hs
      cases hr : c.recv g.ichan with
      | none => simp [hr] at hs
      | some p =>
        obtain ⟨e, c2⟩ := p
        simp only [hr] at hs
        cases hc : g.recordMapper.call e with
        | none =>
          obtain ⟨_, _, _, _, X, hX, _⟩ := recv_parts c hw R hf k g hg e c2 hr
          obtain ⟨ys, hys⟩ := hf.future_some (lt_length_of_getElem? hg)
          rw [hg, hX] at hys
          simp only [futureOf, hpc, Option.some_bind] at hys
          rw [runnerOutput_cons, hc] at hys
          cases hys
        | some q => simp [hc] at hs
    | sending pending b =>
      cases pending with
      | nil => simp [hpc] at hs
      | cons o rest =>
        simp only [hpc] at hs
        cases hsd : c.send o g.ochan <;> simp [hsd] at hs

theorem sum_map_range_lt (f f1 : Nat → Nat) (n k : Nat) (hk : k < n)
    (hne : ∀ i, i ≠ k → f1 i = f i) (hlt : f1 k < f k) :
    ((List.range n).map f1).sum < ((List.range n).map f).sum := by
  induction n with
  | zero => omega
  | succ n ih =>
    simp only [List.range_succ, List.map_append, List.sum_append, List.map_cons, List.map_nil,
      List.sum_cons, List.sum_nil, Nat.add_zero]
    by_cases hkn : k = n
    · subst hkn
      have : ((List.range k).map f1) = ((List.range k).map f) :=
        List.map_congr_left (fun i hi => hne i (by
          have := List.mem_range.mp hi
          omega))
      rw [this]
      omega
    · have := ih (by omega)
      rw [hne n (Ne.symm hkn)]
      omega

theorem Effect.measure_lt {c c1 : Config} {k : Nat} (he : Effect c k c1)
    {R : List RecordAndContext} (hf : c.Flowing R) : c1.measure < c.measure := by
  obtain ⟨hlen, _, hother, harr, g, g1, hg, hg1, _, _, hat⟩ := he
  have hk : k < c.goroutines.length := lt_length_of_getElem? hg
  unfold Config.measure
  rw [hlen]
  apply sum_map_range_lt _ _ _ k hk
  · intro i hik
    simp only [Config.weight, harr i hik, hother i hik]
  · obtain ⟨ys, hys⟩ := hf.future_some hk
    obtain ⟨xs, hxs, _⟩ := hf.1 k g hg
    rw [hg] at hys
    simp only [Config.weight, hg, hg1, hys, Option.getD_some]
    rcases hat with ⟨hpc, e, X, outs, hX, hX1, hpc1, hfu⟩ | ⟨o, rest, b, hpc, hpc1, ha, hm⟩ |
      ⟨b, hpc, hpc1, ha, hm⟩
    · rw [hX] at hys
      rw [hX1, hfu, hys, hX]
      simp only [Option.getD_some, List.length_cons, hpc, hpc1, Pc.inMap]
      simp
      omega
    · rw [ha, hxs]
      rw [hxs] at hys
      simp only [Option.getD_some, hpc, hpc1, Pc.inMap]
      cases b
      · simp only [futureOf, hpc, hpc1, hm, Bool.false_eq_true, if_false,
          Option.some_bind] at hys ⊢
        cases hro : runnerOutput g.recordMapper xs with
        | none => simp [hro] at hys
        | some zs =>
          simp only [hro, Option.map_some', Option.some.injEq] at hys
          subst hys
          simp
      · simp only [futureOf, hpc, hpc1, if_true, Option.some.injEq] at hys ⊢
        subst hys
        simp
    · rw [ha, hxs]
      rw [hxs] at hys
      cases b
      · simp only [futureOf, hpc, hpc1, hm, Bool.false_eq_true, if_false,
          Option.some_bind, Pc.inMap] at hys ⊢
        cases hro : runnerOutput g.recordMapper xs with
        | none => simp [hro] at hys
        | some zs =>
          simp only [hro, Option.map_some', Option.some.injEq] at hys
          subst hys
          simp
      · simp only [futureOf, hpc, hpc1, if_true, Option.some.injEq, Pc.inMap] at hys ⊢
        subst hys
        simp

/-! ## Some goroutine can always step until all have left their loops -/

theorem canStep_of_tau (c : Config) (k : Nat) (g : Goroutine) (b : Bool)
    (hg : c.goroutines[k]? = some g) (hpc : g.pc = .sending [] b) : c.canStep :=
  ⟨k, by simp only [Config.step, hg, hpc]; exact ⟨_, rfl⟩⟩

theorem canStep_of_send (c : Config) (hw : c.Wired) (k : Nat) (g : Goroutine)
    (o : RecordAndContext) (rest : List RecordAndContext) (b : Bool)
    (hg : c.goroutines[k]? = some g) (hpc : g.pc = .sending (o :: rest) b)
    (hroom : k + 1 = c.goroutines.length ∨ (c.buffers k).length < c.capacity k) :
    c.canStep := by
  have hoc := (hw.1 k g hg).2
  by_cases hlast : k + 1 = c.goroutines.length
  · rw [if_pos hlast] at hoc
    exact ⟨k, by simp only [Config.step, hg, hpc, hoc, Config.send]; exact ⟨_, rfl⟩⟩
  · rw [if_neg hlast] at hoc
    have hr : (c.buffers k).length < c.capacity k := by
      rcases hroom with h | h
      · exact absurd h hlast
      · exact h
    exact ⟨k, by simp only [Config.step, hg, hpc, hoc, Config.send, hr, if_true]; exact ⟨_, rfl⟩⟩

theorem canStep_of_recv (c : Config) (hw : c.Wired) (R : List RecordAndContext)
    (hf : c.Flowing R) (k : Nat) (g : Goroutine)
    (hg : c.goroutines[k]? = some g) (hpc : g.pc = .receiving)
    (hin : (k = 0 ∧ c.source ≠ []) ∨ (∃ n, k = n + 1 ∧ c.buffers n ≠ [])) :
    c.canStep := by
  have hic := (hw.1 k g hg).1
  have hnp := step_ne_panicked c hw R hf k
  have hrecv : ∃ e c2, c.recv g.ichan = some (e, c2) := by
    rcases hin with ⟨hk, hsrc⟩ | ⟨n, hk, hbuf⟩
    · rw [hic, if_pos hk]
      cases hs : c.source with
      | nil => exact absurd hs hsrc
      | cons e rest => exact ⟨e, by simp only [Config.recv, hs]; exact ⟨_, rfl⟩⟩
    · rw [hic, if_neg (by omega)]
      subst hk
      cases hs : c.buffers n with
      | nil => exact absurd hs hbuf
      | cons e rest =>
        exact ⟨e, by simp only [Config.recv, Nat.add_sub_cancel, hs]; exact ⟨_, rfl⟩⟩
  obtain ⟨e, c2, hr⟩ := hrecv
  cases hc : g.recordMapper.call e with
  | none =>
    exfalso
    apply hnp
    simp only [Config.step, hg, hpc, hr, hc]
  | some q =>
    obtain ⟨m1, outs⟩ := q
    exact ⟨k, by simp only [Config.step, hg, hpc, hr, hc]; exact ⟨_, rfl⟩⟩

theorem canStep_of_receiving (c : Config) (hw : c.Wired) (R : List RecordAndContext)
    (hf : c.Flowing R) (k : Nat) (g : Goroutine)
    (hg : c.goroutines[k]? = some g) (hpc : g.pc = .receiving) : c.canStep := by
  induction k generalizing g with
  | zero =>
    obtain ⟨xs, hxs, hcond⟩ := hf.1 0 g hg
    simp only [hpc, Pc.seenEnd, Bool.false_eq_true, if_false] at hcond
    simp only [Config.arriving, Option.some.injEq] at hxs
    exact canStep_of_recv c hw R hf 0 g hg hpc
      (Or.inl ⟨rfl, by rw [hxs]; exact wellFormedStream_ne_nil hcond⟩)
  | succ n ih =>
    have hk : n + 1 < c.goroutines.length := lt_length_of_getElem? hg
    by_cases hbuf : c.buffers n = []
    · obtain ⟨xs, hxs, hcond⟩ := hf.1 (n + 1) g hg
      simp only [hpc, Pc.seenEnd, Bool.false_eq_true, if_false] at hcond
      have hne := wellFormedStream_ne_nil hcond
      have hn : n < c.goroutines.length := by omega
      have hgn : c.goroutines[n]? = some c.goroutines[n] := List.getElem?_eq_getElem hn
      rw [arriving_succ, hgn] at hxs
      have hob : c.outBuf n = [] := by
        simp only [Config.outBuf, if_neg (show n + 1 ≠ c.goroutines.length by omega), hbuf]
      rw [hob] at hxs
      cases hpcn : c.goroutines[n].pc with
      | exited =>
        simp only [futureOf, hpcn, Option.map_some', List.nil_append, Option.some.injEq] at hxs
        exact absurd hxs.symm hne
      | receiving => exact ih c.goroutines[n] hgn hpcn
      | sending pending b =>
        cases pending with
        | nil => exact canStep_of_tau c n _ b hgn hpcn
        | cons o rest =>
          refine canStep_of_send c hw n _ o rest b hgn hpcn (Or.inr ?_)
          rw [hbuf]
          exact hw.2 n hk
    · exact canStep_of_recv c hw R hf (n + 1) g hg hpc (Or.inr ⟨n, rfl, hbuf⟩)

theorem canStep_of_sending (c : Config) (hw : c.Wired) (R : List RecordAndContext)
    (hf : c.Flowing R) (d k : Nat) (hd : k + d + 1 = c.goroutines.length) (g : Goroutine)
    (hg : c.goroutines[k]? = some g) (pending : List RecordAndContext) (b : Bool)
    (hpc : g.pc = .sending pending b) : c.canStep := by
  induction d generalizing k g pending b with
  | zero =>
    cases pending with
    | nil => exact canStep_of_tau c k g b hg hpc
    | cons o rest => exact canStep_of_send c hw k g o rest b hg hpc (Or.inl (by omega))
  | succ d ih =>
    cases pending with
    | nil => exact canStep_of_tau c k g b hg hpc
    | cons o rest =>
      by_cases hroom : (c.buffers k).length < c.capacity k
      · exact canStep_of_send c hw k g o rest b hg hpc (Or.inr hroom)
      · have hcap := hw.2 k (by omega)
        have hbuf : c.buffers k ≠ [] := by
          intro h
          rw [h] at hroom
          simp at hroom
          omega
        have hk1 : k + 1 < c.goroutines.length := by omega
        have hg1 : c.goroutines[k + 1]? = some c.goroutines[k + 1] :=
          List.getElem?_eq_getElem hk1
        obtain ⟨xs, hxs, hcond⟩ := hf.1 (k + 1) _ hg1
        have hxne : xs ≠ [] := by
          rw [arriving_succ] at hxs
          have hob : c.outBuf k = c.buffers k := by
            simp only [Config.outBuf, if_neg (show k + 1 ≠ c.goroutines.length by omega)]
          rw [hob] at hxs
          cases hfu : futureOf c.goroutines[k]? (c.arriving k) with
          | none => simp [hfu] at hxs
          | some ys =>
            simp only [hfu, Option.map_some', Option.some.injEq] at hxs
            rw [← hxs]
            simp [hbuf]
        cases hpc1 : c.goroutines[k + 1].pc with
        | exited =>
          simp only [hpc1, Pc.seenEnd, if_true] at hcond
          exact absurd hcond hxne
        | receiving =>
          exact canStep_of_recv c hw R hf (k + 1) _ hg1 hpc1 (Or.inr ⟨k, rfl, hbuf⟩)
        | sending p2 b2 => exact ih (k + 1) (by omega) _ hg1 p2 b2 hpc1

theorem canStep_of_not_allExited (c : Config) (hw : c.Wired) (R : List RecordAndContext)
    (hf : c.Flowing R) (h : ¬ c.allExited) : c.canStep := by
  unfold Config.allExited at h
  push_neg at h
  obtain ⟨g, hmem, hpc⟩ := h
  obtain ⟨k, hk, hgk⟩ := List.getElem_of_mem hmem
  have hg : c.goroutines[k]? = some g := by rw [List.getElem?_eq_getElem hk, hgk]
  cases hp : g.pc with
  | exited => exact absurd hp hpc
  | receiving => exact canStep_of_receiving c hw R hf k g hg hp
  | sending pending b =>
    exact canStep_of_sending c hw R hf (c.goroutines.length - k - 1) k (by omega) g hg
      pending b hp

theorem sink_of_allExited (c : Config) (R : List RecordAndContext) (hf : c.Flowing R)
    (hne : c.goroutines ≠ []) (h : c.allExited) : c.sink = R := by
  have hlen : 0 < c.goroutines.length := List.length_pos.mpr hne
  obtain ⟨n, hn⟩ : ∃ n, c.goroutines.length = n + 1 := ⟨c.goroutines.length - 1, by omega⟩
  have hR := hf.2
  rw [hn, arriving_succ] at hR
  have hlt : n < c.goroutines.length := by omega
  have hex : c.goroutines[n].pc = .exited := h _ (List.getElem_mem hlt)
  rw [List.getElem?_eq_getElem hlt] at hR
  simp only [futureOf, hex, Option.map_some', List.append_nil, Option.some.injEq] at hR
  rw [← hR]
  simp [Config.outBuf, hn]

theorem sink_initial (c : Config) (R : List RecordAndContext) (hf : c.Flowing R)
    (hne : c.goroutines ≠ []) : c.sink <+: R := by
  have hlen : 0 < c.goroutines.length := List.length_pos.mpr hne
  obtain ⟨n, hn⟩ : ∃ n, c.goroutines.length = n + 1 := ⟨c.goroutines.length - 1, by omega⟩
  have hR := hf.2
  rw [hn, arriving_succ] at hR
  cases hfu : futureOf c.goroutines[n]? (c.arriving n) with
  | none => simp [hfu] at hR
  | some ys =>
    simp only [hfu, Option.map_some', Option.some.injEq] at hR
    rw [← hR]
    simp [Config.outBuf, hn]

/-! ## Runs of a pipeline -/

theorem not_canStep_of_allExited (c : Config) (h : c.allExited) : ¬ c.canStep := by
  rintro ⟨i, c1, hs⟩
  unfold Config.step at hs
  cases hg : c.goroutines[i]? with
  | none => simp [hg] at hs
  | some g =>
    have hpc : g.pc = .exited := h g (List.getElem?_mem hg)
    simp [hg, hpc] at hs

theorem run_invariant (R : List RecordAndContext) (sched : List Nat) :
    ∀ (c c1 : Config), c.Wired → c.Flowing R → c.run sched = some c1 →
      c1.Wired ∧ c1.Flowing R ∧ c1.measure + sched.length ≤ c.measure ∧
        c1.goroutines.length = c.goroutines.length := by
  induction sched with
  | nil =>
    intro c c1 hw hf hr
    simp only [Config.run, Option.some.injEq] at hr
    subst hr
    exact ⟨hw, hf, by simp, rfl⟩
  | cons i later ih =>
    intro c c1 hw hf hr
    simp only [Config.run] at hr
    cases hs : c.step i with
    | blocked => simp [hs] at hr
    | panicked => simp [hs] at hr
    | next c2 =>
      simp only [hs] at hr
      have he := step_effect c hw R hf i c2 hs
      obtain ⟨h1, h2, h3, h4⟩ := ih c2 c1 (he.wired hw) (he.flowing hf) hr
      have hm := he.measure_lt hf
      refine ⟨h1, h2, ?_, by rw [h4, he.1]⟩
      simp only [List.length_cons]
      omega

theorem exists_run_to_end (R : List RecordAndContext) (n : Nat) :
    ∀ (c : Config), c.measure ≤ n → c.Wired → c.Flowing R →
      ∃ sched c1, c.run sched = some c1 ∧ c1.allExited := by
  induction n with
  | zero =>
    intro c hn hw hf
    by_cases hall : c.allExited
    · exact ⟨[], c, rfl, hall⟩
    · obtain ⟨i, c2, hs⟩ := canStep_of_not_allExited c hw R hf hall
      have := (step_effect c hw R hf i c2 hs).measure_lt hf
      omega
  | succ n ih =>
    intro c hn hw hf
    by_cases hall : c.allExited
    · exact ⟨[], c, rfl, hall⟩
    · obtain ⟨i, c2, hs⟩ := canStep_of_not_allExited c hw R hf hall
      have he := step_effect c hw R hf i c2 hs
      have hm := he.measure_lt hf
      obtain ⟨sched, c1, hr, hex⟩ := ih c2 (by omega) (he.wired hw) (he.flowing hf)
      exact ⟨i :: sched, c1, by simp only [Config.run, hs, hr], hex⟩

theorem delivers_of_invariant (c0 : Config) (R : List RecordAndContext) (hw : c0.Wired)
    (hf : c0.Flowing R) (hne : c0.goroutines ≠ []) : c0.Delivers R := by
  constructor
  · intro sched c hr
    obtain ⟨hw1, hf1, _, hlen⟩ := run_invariant R sched c0 c hw hf hr
    have hne1 : c.goroutines ≠ [] := by
      intro h
      rw [h] at hlen
      exact hne (List.length_eq_zero.mp hlen.symm)
    refine ⟨sink_initial c R hf1 hne1, step_ne_panicked c hw1 R hf1, ?_⟩
    intro hstuck
    by_cases hall : c.allExited
    · exact sink_of_allExited c R hf1 hne1 hall
    · exact absurd (canStep_of_not_allExited c hw1 R hf1 hall) hstuck
  · obtain ⟨sched, c, hr, hall⟩ := exists_run_to_end R c0.measure c0 (le_refl _) hw hf
    obtain ⟨hw1, hf1, _, hlen⟩ := run_invariant R sched c0 c hw hf hr
    have hne1 : c.goroutines ≠ [] := by
      intro h
      rw [h] at hlen
      exact hne (List.length_eq_zero.mp hlen.symm)
    exact ⟨sched, c, hr, not_canStep_of_allExited c hall, sink_of_allExited c R hf1 hne1 hall⟩

theorem terminates_of_invariant (c0 : Config) (R : List RecordAndContext) (hw : c0.Wired)
    (hf : c0.Flowing R) : c0.Terminates := by
  refine ⟨⟨c0.measure, ?_⟩, exists_run_to_end R c0.measure c0 (le_refl _) hw hf⟩
  intro sched c hr
  obtain ⟨hw1, hf1, hm, _⟩ := run_invariant R sched c0 c hw hf hr
  refine ⟨by omega, step_ne_panicked c hw1 R hf1, ?_⟩
  intro hstuck
  by_contra hall
  exact hstuck (canStep_of_not_allExited c hw1 R hf1 hall)

/-! ## The pipeline right after construction -/

theorem pipelineOutput_append_singleton (ms : List IRecordMapper) (m : IRecordMapper)
    (input : List RecordAndContext) :
    pipelineOutput (ms ++ [m]) input = (pipelineOutput ms input).bind (runnerOutput m) := by
  simp [pipelineOutput, List.foldl_append]

theorem pipelineOutput_wellFormed (ms : List IRecordMapper) (hms : ∀ m ∈ ms, StageContract m)
    (input : List RecordAndContext) (hin : WellFormedStream input) :
    ∃ R, pipelineOutput ms input = some R ∧ WellFormedStream R := by
  induction ms using List.reverseRecOn with
  | nil => exact ⟨input, rfl, hin⟩
  | append_singleton ms m ih =>
    obtain ⟨R1, h1, hw1⟩ := ih (fun x hx => hms x (by simp [hx]))
    obtain ⟨R, h2, hw2⟩ := runnerOutput_wellFormed m (hms m (by simp)) R1 hw1
    exact ⟨R, by rw [pipelineOutput_append_singleton, h1]; exact h2, hw2⟩

theorem start_goroutines (w : Wiring) (input : List RecordAndContext) (i : Nat) :
    (w.start input).goroutines[i]? = (w.launched[i]?).map (fun l =>
      ({ ichan := l.ichan, ochan := l.ochan, recordMapper := l.recordMapper,
         pc := .receiving } : Goroutine)) := by
  simp [Wiring.start, List.getElem?_map]

theorem start_arriving (w : Wiring) (ms : List IRecordMapper)
    (hl : ∀ i : Nat, (w.launched[i]?).map (fun (l : Launch) => l.recordMapper) = ms[i]?)
    (input : List RecordAndContext) (i : Nat) (hi : i ≤ ms.length) :
    (w.start input).arriving i = pipelineOutput (ms.take i) input := by
  induction i with
  | zero => simp [Config.arriving, Wiring.start, pipelineOutput]
  | succ n ih =>
    have hn : n < ms.length := by omega
    have htake : ms.take (n + 1) = ms.take n ++ [ms[n]] := by
      rw [List.take_succ, List.getElem?_eq_getElem hn]
      rfl
    rw [arriving_succ, ih (by omega), start_goroutines, htake,
      pipelineOutput_append_singleton]
    have h1 := hl n
    rw [List.getElem?_eq_getElem hn] at h1
    cases hw : w.launched[n]? with
    | none => simp [hw] at h1
    | some l =>
      simp only [hw, Option.map_some', Option.some.injEq] at h1
      have hob : (w.start input).outBuf n = [] := by
        simp only [Config.outBuf, Wiring.start]
        split <;> rfl
      simp only [Option.map_some', futureOf, hob, h1]
      cases (pipelineOutput (List.take n ms) input).bind (runnerOutput ms[n]) with
      | none => rfl
      | some ys => simp

theorem start_invariant (ms : List IRecordMapper) (hN : 1 ≤ ms.length)
    (hms : ∀ m ∈ ms, StageContract m) (input : List RecordAndContext)
    (hin : WellFormedStream input) :
    ∃ w R, ChainMapper ms = .ok w ∧ pipelineOutput ms input = some R ∧ WellFormedStream R ∧
      (w.start input).Wired ∧ (w.start input).Flowing R ∧
      (w.start input).goroutines ≠ [] := by
  obtain ⟨w, hw, hch, _, _, hlen, hget, _⟩ := ChainMapper_ok ms hN
  obtain ⟨R, hR, hRw⟩ := pipelineOutput_wellFormed ms hms input hin
  have hglen : (w.start input).goroutines.length = ms.length := by
    simp [Wiring.start, hlen]
  have hl : ∀ i : Nat, (w.launched[i]?).map (fun (l : Launch) => l.recordMapper) = ms[i]? := by
    intro i
    rw [hget i]
    cases ms[i]? <;> rfl
  refine ⟨w, R, hw, hR, hRw, ⟨?_, ?_⟩, ⟨?_, ?_⟩, ?_⟩
  · intro i g hg
    rw [start_goroutines, hget i] at hg
    cases hm : ms[i]? with
    | none => simp [hm] at hg
    | some m =>
      simp only [hm, Option.map_some', Option.some.injEq] at hg
      subst hg
      rw [hglen]
      exact ⟨rfl, rfl⟩
  · intro k hk
    rw [hglen] at hk
    have hk1 : k < ms.length - 1 := by omega
    simp [Wiring.start, hch, List.getElem?_map, List.getElem?_range, hk1]
  · intro i g hg
    have hi : i < ms.length := by
      rw [← hglen]
      exact lt_length_of_getElem? hg
    rw [start_goroutines] at hg
    cases hlw : w.launched[i]? with
    | none => simp [hlw] at hg
    | some l =>
      simp only [hlw, Option.map_some', Option.some.injEq] at hg
      subst hg
      obtain ⟨xs, hxs, hxw⟩ := pipelineOutput_wellFormed (ms.take i)
        (fun m hm => hms m (List.mem_of_mem_take hm)) input hin
      refine ⟨xs, ?_, by simpa [Pc.seenEnd] using hxw⟩
      rw [start_arriving w ms hl input i (by omega)]
      exact hxs
  · rw [hglen, start_arriving w ms hl input ms.length (le_refl _), List.take_length]
    exact hR
  · intro h
    rw [h] at hglen
    simp at hglen
    omega

/-! ## Stages that obey the contract -/

theorem passThrough_contract : StageContract passThrough := by
  intro s e
  exact ⟨fun he => ⟨(), [e], rfl, by simpa using he⟩, fun _ => ⟨(), [], rfl, by simp⟩⟩

theorem cleanWhitespace_contract (doKeys doValues : Bool) :
    StageContract (NewTransformerCleanWhitespace doKeys doValues).asMapper := by
  intro s e
  constructor
  · intro he
    obtain ⟨hrec, hflag⟩ := he
    cases hr : e.Record with
    | none => exact absurd hr hrec
    | some record =>
      simp only [TransformerCleanWhitespace.asMapper, Transform_cases]
      cases doKeys <;> cases doValues <;>
        simp [cleanWhitespaceInKeysAndValues, cleanWhitespaceInKeys, cleanWhitespaceInValues,
          hflag, hr, NewRecordAndContext, IsData]
  · intro he
    refine ⟨(), [], ?_, by simp⟩
    simp only [TransformerCleanWhitespace.asMapper, Transform_cases]
    cases doKeys <;> cases doValues <;>
      simp [cleanWhitespaceInKeysAndValues, cleanWhitespaceInKeys, cleanWhitespaceInValues,
        he.2]

theorem runnerOutput_cleanValues (m : IRecordMapper)
    (hm : m = (NewTransformerCleanWhitespace false true).asMapper)
    (ds : List RecordAndContext) (t : RecordAndContext)
    (hds : ∀ d ∈ ds, IsData d) (ht : IsTerminal t) :
    runnerOutput m (ds ++ [t]) = some (ds.map cleanValuesOf ++ [t]) := by
  subst hm
  induction ds with
  | nil =>
    rw [List.nil_append, runnerOutput_cons]
    simp [IRecordMapper.call, TransformerCleanWhitespace.asMapper,
      TransformerCleanWhitespace.Transform, NewTransformerCleanWhitespace,
      cleanWhitespaceInValues, ht.1, ht.2]
  | cons d ds ih =>
    have hd := hds d (by simp)
    have ih1 := ih (fun x hx => hds x (by simp [hx]))
    cases hr : d.Record with
    | none => exact absurd hr hd.1
    | some record =>
      rw [List.cons_append, runnerOutput_cons]
      have hcall : (NewTransformerCleanWhitespace false true).asMapper.call d
          = some ((NewTransformerCleanWhitespace false true).asMapper, [cleanValuesOf d]) := by
        simp [IRecordMapper.call, TransformerCleanWhitespace.asMapper,
          TransformerCleanWhitespace.Transform, NewTransformerCleanWhitespace,
          cleanWhitespaceInValues, hd.2, hr, cleanValuesOf, cleanValuesLoop_eq,
          IRecordMapper.withState]
      rw [hcall]
      simp [hr, ih1]

/-! ## The pipeline as a whole -/

/-- C1 as the code has it: for N >= 1 stages that each obey the stage contract and
an input of data envelopes closed by one terminal envelope, the pipeline built by
`ChainMapper` delivers on the external output the data envelopes the stages make of
that input, in order, and then exactly one terminal envelope, last. -/
theorem pipeline_delivers_one_terminal (recordMappers : List IRecordMapper)
    (hN : 1 ≤ recordMappers.length) (hms : ∀ m ∈ recordMappers, StageContract m)
    (input : List RecordAndContext) (hin : WellFormedStream input) :
    ∃ w result, ChainMapper recordMappers = .ok w ∧
      pipelineOutput recordMappers input = some result ∧ WellFormedStream result ∧
      (w.start input).Delivers result := by
  obtain ⟨w, R, hw, hR, hRw, hwired, hflow, hne⟩ :=
    start_invariant recordMappers hN hms input hin
  exact ⟨w, R, hw, hR, hRw, delivers_of_invariant _ R hwired hflow hne⟩

theorem pipeline_delivers_one_terminal_witness :
    1 ≤ [(NewTransformerCleanWhitespace true true).asMapper, passThrough].length ∧
    (∀ m ∈ [(NewTransformerCleanWhitespace true true).asMapper, passThrough],
      StageContract m) ∧
    WellFormedStream [⟨some [(" a", ⟨"x  y"⟩)], ⟨"in.csv", 1⟩, false⟩,
      ⟨none, ⟨"in.csv", 1⟩, true⟩] ∧
    ∃ w result,
      ChainMapper [(NewTransformerCleanWhitespace true true).asMapper, passThrough] = .ok w ∧
      pipelineOutput [(NewTransformerCleanWhitespace true true).asMapper, passThrough]
        [⟨some [(" a", ⟨"x  y"⟩)], ⟨"in.csv", 1⟩, false⟩, ⟨none, ⟨"in.csv", 1⟩, true⟩]
        = some result ∧
      WellFormedStream result ∧
      (w.start [⟨some [(" a", ⟨"x  y"⟩)], ⟨"in.csv", 1⟩, false⟩,
        ⟨none, ⟨"in.csv", 1⟩, true⟩]).Delivers result := by
  have h1 : 1 ≤ [(NewTransformerCleanWhitespace true true).asMapper, passThrough].length := by
    decide
  have h2 : ∀ m ∈ [(NewTransformerCleanWhitespace true true).asMapper, passThrough],
      StageContract m := by
    intro m hm
    simp only [List.mem_cons, List.mem_singleton, List.not_mem_nil, or_false] at hm
    rcases hm with rfl | rfl
    · exact cleanWhitespace_contract true true
    · exact passThrough_contract
  have h3 : WellFormedStream [⟨some [(" a", ⟨"x  y"⟩)], ⟨"in.csv", 1⟩, false⟩,
      ⟨none, ⟨"in.csv", 1⟩, true⟩] :=
    ⟨[⟨some [(" a", ⟨"x  y"⟩)], ⟨"in.csv", 1⟩, false⟩], ⟨none, ⟨"in.csv", 1⟩, true⟩, rfl,
      by simp [IsData], by simp [IsTerminal]⟩
  exact ⟨h1, h2, h3, pipeline_delivers_one_terminal _ h1 h2 _ h3⟩

/-- C1 fails as stated: a one-stage pipeline whose stage sends nothing, fed the
terminal envelope alone, runs to its end with an empty output: no terminal envelope
is delivered. -/
theorem pipeline_swallow_no_terminal :
    ∃ w c, ChainMapper [swallow] = .ok w ∧
      (w.start [⟨none, ⟨"in.csv", 1⟩, true⟩]).run [0, 0] = some c ∧
      c.allExited ∧ ¬ c.canStep ∧ c.sink = [] := by
  refine ⟨⟨[], [⟨.inrecsAndContexts, swallow, .outrecsAndContexts⟩]⟩, ?_⟩
  have h : ((Wiring.start ⟨[], [⟨.inrecsAndContexts, swallow, .outrecsAndContexts⟩]⟩
      [⟨none, ⟨"in.csv", 1⟩, true⟩]).run [0, 0]).map (fun c => (c.allExitedB, c.sink))
      = some (true, []) := by decide
  cases hr : (Wiring.start ⟨[], [⟨.inrecsAndContexts, swallow, .outrecsAndContexts⟩]⟩
      [⟨none, ⟨"in.csv", 1⟩, true⟩]).run [0, 0] with
  | none => rw [hr] at h; cases h
  | some c =>
    rw [hr] at h
    simp only [Option.map_some', Option.some.injEq, Prod.mk.injEq] at h
    have hall : c.allExited := by
      intro g hg
      have := List.all_eq_true.mp h.1 g hg
      simpa using this
    exact ⟨c, rfl, rfl, hall, not_canStep_of_allExited c hall, h.2⟩

/-- C4 as the code has it: for N >= 1 stages that each obey the stage contract and
an input of data envelopes closed by one terminal envelope, with the output drained,
every run of the pipeline built by `ChainMapper` is finite, meets no panic, and can
only halt with every goroutine out of its loop. -/
theorem pipeline_terminates (recordMappers : List IRecordMapper)
    (hN : 1 ≤ recordMappers.length) (hms : ∀ m ∈ recordMappers, StageContract m)
    (input : List RecordAndContext) (hin : WellFormedStream input) :
    ∃ w, ChainMapper recordMappers = .ok w ∧ (w.start input).Terminates := by
  obtain ⟨w, R, hw, _, _, hwired, hflow, _⟩ :=
    start_invariant recordMappers hN hms input hin
  exact ⟨w, hw, terminates_of_invariant _ R hwired hflow⟩

theorem pipeline_terminates_witness :
    1 ≤ [passThrough, (NewTransformerCleanWhitespace false true).asMapper].length ∧
    (∀ m ∈ [passThrough, (NewTransformerCleanWhitespace false true).asMapper],
      StageContract m) ∧
    WellFormedStream [⟨some [("a", ⟨" x "⟩)], ⟨"in.csv", 1⟩, false⟩,
      ⟨none, ⟨"in.csv", 1⟩, true⟩] ∧
    ∃ w,
      ChainMapper [passThrough, (NewTransformerCleanWhitespace false true).asMapper] = .ok w ∧
      (w.start [⟨some [("a", ⟨" x "⟩)], ⟨"in.csv", 1⟩, false⟩,
        ⟨none, ⟨"in.csv", 1⟩, true⟩]).Terminates := by
  have h1 : 1 ≤ [passThrough, (NewTransformerCleanWhitespace false true).asMapper].length := by
    decide
  have h2 : ∀ m ∈ [passThrough, (NewTransformerCleanWhitespace false true).asMapper],
      StageContract m := by
    intro m hm
    simp only [List.mem_cons, List.mem_singleton, List.not_mem_nil, or_false] at hm
    rcases hm with rfl | rfl
    · exact passThrough_contract
    · exact cleanWhitespace_contract false true
  have h3 : WellFormedStream [⟨some [("a", ⟨" x "⟩)], ⟨"in.csv", 1⟩, false⟩,
      ⟨none, ⟨"in.csv", 1⟩, true⟩] :=
    ⟨[⟨some [("a", ⟨" x "⟩)], ⟨"in.csv", 1⟩, false⟩], ⟨none, ⟨"in.csv", 1⟩, true⟩, rfl,
      by simp [IsData], by simp [IsTerminal]⟩
  exact ⟨h1, h2, h3, pipeline_terminates _ h1 h2 _ h3⟩

theorem anyStep_false_not_canStep (c : Config) (h : c.anyStep = false) : ¬ c.canStep := by
  rintro ⟨i, c1, hs⟩
  have hi : i < c.goroutines.length := by
    by_contra hcon
    have hnone : c.goroutines[i]? = none := List.getElem?_eq_none (by omega)
    simp [Config.step, hnone] at hs
  have hany : c.anyStep = true := by
    simp only [Config.anyStep, List.any_eq_true, List.mem_range]
    exact ⟨i, hi, by rw [hs]; rfl⟩
  rw [h] at hany
  cases hany

theorem trailing_forwardsTerminalOnce (d : RecordAndContext) (hd : d.Record ≠ none) :
    ForwardsTerminalOnce (trailing d) := by
  intro s e he
  refine ⟨(), [e, d, d], by simp [trailing, he], ?_, ?_⟩
  · have hne : d ≠ e := fun h => hd (h ▸ he)
    simp [List.count_cons, hne]
  · intro o ho hoe
    simp only [List.mem_cons, List.mem_singleton, List.not_mem_nil, or_false] at ho
    rcases ho with rfl | rfl | rfl
    · exact absurd rfl hoe
    · exact hd
    · exact hd

theorem passThrough_forwardsTerminalOnce : ForwardsTerminalOnce passThrough := by
  intro s e _
  exact ⟨(), [e], rfl, by simp, fun o ho hoe => absurd (by simpa using ho) hoe⟩

/-- C4 fails as stated: both stages of this two-stage pipeline forward the terminal
envelope unmodified exactly once, the first one sending two envelopes more after
it; fed the terminal envelope, the pipeline comes to a halt with the first
goroutine still in its loop, blocked on a send nobody will receive. -/
theorem pipeline_trailing_deadlock :
    ForwardsTerminalOnce (trailing ⟨some [("a", ⟨"1"⟩)], ⟨"in.csv", 1⟩, false⟩) ∧
    ForwardsTerminalOnce passThrough ∧
    ∃ w c,
      ChainMapper [trailing ⟨some [("a", ⟨"1"⟩)], ⟨"in.csv", 1⟩, false⟩, passThrough]
        = .ok w ∧
      (w.start [⟨none, ⟨"in.csv", 2⟩, true⟩]).run [0, 0, 1, 0, 1, 1] = some c ∧
      ¬ c.canStep ∧ ¬ c.allExited := by
  refine ⟨trailing_forwardsTerminalOnce _ (by simp), passThrough_forwardsTerminalOnce,
    ⟨[⟨.intermediate 0, 1⟩],
      [⟨.inrecsAndContexts, trailing ⟨some [("a", ⟨"1"⟩)], ⟨"in.csv", 1⟩, false⟩,
          .intermediate 0⟩,
        ⟨.intermediate 0, passThrough, .outrecsAndContexts⟩]⟩, ?_⟩
  have h : ((Wiring.start ⟨[⟨.intermediate 0, 1⟩],
      [⟨.inrecsAndContexts, trailing ⟨some [("a", ⟨"1"⟩)], ⟨"in.csv", 1⟩, false⟩,
          .intermediate 0⟩,
        ⟨.intermediate 0, passThrough, .outrecsAndContexts⟩]⟩
      [⟨none, ⟨"in.csv", 2⟩, true⟩]).run [0, 0, 1, 0, 1, 1]).map
        (fun c => (c.anyStep, c.allExitedB)) = some (false, false) := by decide
  cases hr : (Wiring.start ⟨[⟨.intermediate 0, 1⟩],
      [⟨.inrecsAndContexts, trailing ⟨some [("a", ⟨"1"⟩)], ⟨"in.csv", 1⟩, false⟩,
          .intermediate 0⟩,
        ⟨.intermediate 0, passThrough, .outrecsAndContexts⟩]⟩
      [⟨none, ⟨"in.csv", 2⟩, true⟩]).run [0, 0, 1, 0, 1, 1] with
  | none => rw [hr] at h; cases h
  | some c =>
    rw [hr] at h
    simp only [Option.map_some', Option.some.injEq, Prod.mk.injEq] at h
    refine ⟨c, rfl, rfl, anyStep_false_not_canStep c h.1, ?_⟩
    intro hall
    have : c.allExitedB = true := by
      simp only [Config.allExitedB, List.all_eq_true, decide_eq_true_eq]
      exact hall
    rw [h.2] at this
    cases this

/-- C6: for K data envelopes followed by the terminal envelope, the one-stage
pipeline whose stage is clean-whitespace in values-only mode delivers on the
output exactly the K envelopes with every field value whitespace-cleaned, keys and
field order kept, in input order, and then the terminal envelope. -/
theorem cleanWhitespaceValues_pipeline (ds : List RecordAndContext) (t : RecordAndContext)
    (hds : ∀ d ∈ ds, IsData d) (ht : IsTerminal t) :
    ∃ w, ChainMapper [(NewTransformerCleanWhitespace false true).asMapper] = .ok w ∧
      (w.start (ds ++ [t])).Delivers (ds.map cleanValuesOf ++ [t]) := by
  obtain ⟨w, R, hw, hR, _, hwired, hflow, hne⟩ :=
    start_invariant [(NewTransformerCleanWhitespace false true).asMapper] (by simp)
      (fun m hm => by
        simp only [List.mem_singleton] at hm
        subst hm
        exact cleanWhitespace_contract false true)
      (ds ++ [t]) ⟨ds, t, rfl, hds, ht⟩
  have hout : R = ds.map cleanValuesOf ++ [t] := by
    have h1 : pipelineOutput [(NewTransformerCleanWhitespace false true).asMapper] (ds ++ [t])
        = runnerOutput (NewTransformerCleanWhitespace false true).asMapper (ds ++ [t]) := by
      simp [pipelineOutput]
    rw [h1, runnerOutput_cleanValues _ rfl ds t hds ht] at hR
    exact (Option.some.inj hR).symm
  subst hout
  exact ⟨w, hw, delivers_of_invariant _ _ hwired hflow hne⟩

theorem cleanWhitespaceValues_pipeline_witness :
    (∀ d ∈ [(⟨some [("a", ⟨" x "⟩), ("b", ⟨"y  z"⟩)], ⟨"in.csv", 1⟩, false⟩
        : RecordAndContext)], IsData d) ∧
    IsTerminal ⟨none, ⟨"in.csv", 1⟩, true⟩ ∧
    [(⟨some [("a", ⟨" x "⟩), ("b", ⟨"y  z"⟩)], ⟨"in.csv", 1⟩, false⟩
        : RecordAndContext)].map cleanValuesOf ++ [⟨none, ⟨"in.csv", 1⟩, true⟩]
      = [⟨some [("a", ⟨"x"⟩), ("b", ⟨"y z"⟩)], ⟨"in.csv", 1⟩, false⟩,
         ⟨none, ⟨"in.csv", 1⟩, true⟩] ∧
    ∃ w, ChainMapper [(NewTransformerCleanWhitespace false true).asMapper] = .ok w ∧
      (w.start ([⟨some [("a", ⟨" x "⟩), ("b", ⟨"y  z"⟩)], ⟨"in.csv", 1⟩, false⟩]
          ++ [⟨none, ⟨"in.csv", 1⟩, true⟩])).Delivers
        ([(⟨some [("a", ⟨" x "⟩), ("b", ⟨"y  z"⟩)], ⟨"in.csv", 1⟩, false⟩
          : RecordAndContext)].map cleanValuesOf ++ [⟨none, ⟨"in.csv", 1⟩, true⟩]) := by
  have h1 : ∀ d ∈ [(⟨some [("a", ⟨" x "⟩), ("b", ⟨"y  z"⟩)], ⟨"in.csv", 1⟩, false⟩
      : RecordAndContext)], IsData d := by
    intro d hd
    simp only [List.mem_singleton] at hd
    subst hd
    simp [IsData]
  have h2 : IsTerminal ⟨none, ⟨"in.csv", 1⟩, true⟩ := by simp [IsTerminal]
  exact ⟨h1, h2, by decide, cleanWhitespaceValues_pipeline _ _ h1 h2⟩

theorem runSingleMapper_stops_at_first_end_witness :
    (∀ s x, (passThrough.Map s x).isSome = true) ∧
    (runSingleMapper passThrough
        [⟨some [("a", ⟨"1"⟩)], ⟨"in.csv", 1⟩, false⟩, ⟨none, ⟨"in.csv", 1⟩, true⟩,
          ⟨some [("a", ⟨"2"⟩)], ⟨"in.csv", 2⟩, false⟩]).invoked
      = [⟨some [("a", ⟨"1"⟩)], ⟨"in.csv", 1⟩, false⟩] ++ [⟨none, ⟨"in.csv", 1⟩, true⟩] ∧
    (runSingleMapper passThrough
        [⟨some [("a", ⟨"1"⟩)], ⟨"in.csv", 1⟩, false⟩, ⟨none, ⟨"in.csv", 1⟩, true⟩,
          ⟨some [("a", ⟨"2"⟩)], ⟨"in.csv", 2⟩, false⟩]).status = .exited :=
  ⟨fun _ _ => rfl,
    (runSingleMapper_stops_at_first_end passThrough (fun _ _ => rfl)
      [⟨some [("a", ⟨"1"⟩)], ⟨"in.csv", 1⟩, false⟩, ⟨none, ⟨"in.csv", 1⟩, true⟩,
        ⟨some [("a", ⟨"2"⟩)], ⟨"in.csv", 2⟩, false⟩]).1
      [⟨some [("a", ⟨"1"⟩)], ⟨"in.csv", 1⟩, false⟩] ⟨none, ⟨"in.csv", 1⟩, true⟩
      [⟨some [("a", ⟨"2"⟩)], ⟨"in.csv", 2⟩, false⟩] rfl (by simp) rfl⟩

end Miller
